import Mathlib

set_option maxRecDepth 100000

/-!
Verification of the VCD port mapper (`vcd_port_mapper.py`).

The development shallowly embeds the program's string processing.  A file is a
list of lines (`List String`); each line keeps its trailing newline, matching
Python's `readlines`.  Python's `str.strip()`, `str.split()`, `' '.join`,
`str.startswith` are modelled character-exactly on `List Char`; Python regexes
used by the source are embedded as terms of a small regular-expression type
`Rx`, executed by a backtracking matcher `mrx` with Python `re` semantics
(leftmost match, greedy quantifiers with backtracking, left-biased
alternation, `re.IGNORECASE` on literals).  Python dicts are association
lists: assignment prepends, and lookup takes the first (= most recent) entry.
-/

namespace VCD

/-- Whitespace for Python's default `str.strip` / `str.split` (ASCII cases). -/
def pyIsSpace (c : Char) : Bool :=
  c = ' ' || c = '\t' || c = '\n' || c = '\r' || c = '\x0b' || c = '\x0c'

/-- Python regex `\w` (ASCII range, sufficient for the scanned sources). -/
def isWordChar (c : Char) : Bool :=
  c.isAlpha || c.isDigit || c = '_'

/-- Boolean list-prefix test (models Python `str.startswith` on characters). -/
def listPre : List Char → List Char → Bool
  | [], _ => true
  | _ :: _, [] => false
  | a :: as, b :: bs => a = b && listPre as bs

/-- Python `s.startswith(pre)`. -/
def pyStartsWith (s pre : String) : Bool :=
  listPre pre.toList s.toList

/-- Characters of `s.strip()`: drop whitespace from both ends. -/
def pyStripChars (cs : List Char) : List Char :=
  ((cs.dropWhile pyIsSpace).reverse.dropWhile pyIsSpace).reverse

/-- Python `s.strip()`. -/
def pyStrip (s : String) : String :=
  String.mk (pyStripChars s.toList)

/-- Worker for Python `s.split()`: split on runs of whitespace, dropping
empty pieces.  `acc` holds the current in-progress token, reversed. -/
def splitWsAux : List Char → List Char → List (List Char)
  | [], acc => if acc.isEmpty then [] else [acc.reverse]
  | c :: tl, acc =>
    if pyIsSpace c then
      if acc.isEmpty then splitWsAux tl [] else acc.reverse :: splitWsAux tl []
    else
      splitWsAux tl (c :: acc)

/-- Python `s.split()` (no separator argument). -/
def pySplit (s : String) : List String :=
  (splitWsAux s.toList []).map String.mk

/-- Single-space interleaving of token character lists (Python `' '.join`). -/
def joinSp : List (List Char) → List Char
  | [] => []
  | [w] => w
  | w :: ws => w ++ ' ' :: joinSp ws

/-- Python `' '.join(parts) + '\n'`, as built by `update_vcd_file`. -/
def pyJoinNl (ts : List String) : String :=
  String.mk (joinSp (ts.map String.toList) ++ ['\n'])

/-- First-match association-list lookup.  Python dict assignment is modelled
by prepending, so the first hit is the most recent assignment. -/
def lookupA {α : Type} : List (String × α) → String → Option α
  | [], _ => none
  | (k, v) :: tl, key => if k = key then some v else lookupA tl key

/-- Insert a name into a list if absent (models adding to a Python `set`,
determinised to insertion order). -/
def insertDistinct (l : List String) (s : String) : List String :=
  if l.contains s then l else l ++ [s]

/-! ### Comment stripping

The source removes line comments first (`re.sub(r'//.*', '', content)`)
and then block comments (`re.sub(r'/\*.*?\*/', '', content, flags=re.DOTALL)`,
non-greedy, leftmost). -/

/-- Line-comment removal state machine: on `//`, drop up to (not including)
the next newline.  Models `re.sub(r'//.*', '', content)` since `.` does not
match `\n`. -/
def slcGo : Bool → List Char → List Char
  | _, [] => []
  | true, c :: tl => if c = '\n' then '\n' :: slcGo false tl else slcGo true tl
  | false, '/' :: '/' :: tl2 => slcGo true tl2
  | false, c :: tl => c :: slcGo false tl

/-- Split `cs` at the first occurrence of `pat`, returning the part before
and the part after the occurrence. -/
def findSplit (pat : List Char) : List Char → Option (List Char × List Char)
  | [] => if pat.isEmpty then some ([], []) else none
  | c :: tl =>
    if pat.isPrefixOf (c :: tl) then some ([], (c :: tl).drop pat.length)
    else
      match findSplit pat tl with
      | some (pre, post) => some (c :: pre, post)
      | none => none

/-- Block-comment removal: repeatedly cut the leftmost `/*`..nearest`*/`.
If a `/*` has no closing `*/`, nothing more is removed (the regex finds no
match there).  Fuel is the input length; each removal consumes ≥ 4 chars. -/
def sbcGo : Nat → List Char → List Char
  | 0, cs => cs
  | f + 1, cs =>
    match findSplit ['/', '*'] cs with
    | none => cs
    | some (pre, rest) =>
      match findSplit ['*', '/'] rest with
      | none => cs
      | some (_, post) => pre ++ sbcGo f post

/-- The two comment-removal passes of the source, in source order. -/
def stripComments (content : String) : String :=
  let noLine := slcGo false content.toList
  String.mk (sbcGo noLine.length noLine)

/-! ### Regex engine

The regexes of the source are embedded as `Rx` terms and run by a
backtracking matcher with Python `re` semantics: greedy `*`/`+`/`?` with
backtracking, left-biased alternation, leftmost match for `search` and
non-overlapping leftmost matches for `finditer`.  All patterns in the source
are compiled with `re.IGNORECASE`, so literals match case-insensitively. -/

/-- Character classes appearing in the source's patterns. -/
inductive RxCls where
  | wordC        -- \w
  | spaceC       -- \s
  | notSemiC     -- [^;]
  | notRParC     -- [^)]
  | notRBrackC   -- [^]]
  | wordSpComC   -- [\w\s,]
  deriving Repr, DecidableEq

def clsMem : RxCls → Char → Bool
  | .wordC, c => isWordChar c
  | .spaceC, c => pyIsSpace c
  | .notSemiC, c => c ≠ ';'
  | .notRParC, c => c ≠ ')'
  | .notRBrackC, c => c ≠ ']'
  | .wordSpComC, c => isWordChar c || pyIsSpace c || c = ','

/-- Regular expressions, as used in the source. -/
inductive Rx where
  | eps
  | eos                        -- `$` (end of string, or just before a final newline)
  | wordB                      -- `\b`
  | cls (k : RxCls)
  | litCI (c : Char)           -- literal, case-insensitive (re.IGNORECASE)
  | seq (a b : Rx)
  | alt (a b : Rx)
  | star (a : Rx)
  | plus (a : Rx)
  | opt (a : Rx)
  | grp (i : Nat) (a : Rx)

/-- Word-boundary test between a previous character and the rest. -/
def atBoundary (prev : Option Char) (rest : List Char) : Bool :=
  (match prev with | none => false | some c => isWordChar c)
    != (match rest with | [] => false | c :: _ => isWordChar c)

/-- CPS backtracking matcher.  `prev` is the character before the current
position (for `\b`), `caps` accumulates `(group, captured chars)` with the
most recent capture first.  `fuel` bounds continuation depth and is chosen
large enough by the callers. -/
def mrx {σ : Type} : Nat → Rx → Option Char → List Char →
    (Option Char → List Char → List (Nat × List Char) → Option σ) →
    List (Nat × List Char) → Option σ
  | 0, _, _, _, _, _ => none
  | _ + 1, .eps, prev, rest, k, caps => k prev rest caps
  | _ + 1, .eos, prev, rest, k, caps =>
    if rest = [] || rest = ['\n'] then k prev rest caps else none
  | _ + 1, .wordB, prev, rest, k, caps =>
    if atBoundary prev rest then k prev rest caps else none
  | _ + 1, .cls kc, prev, rest, k, caps =>
    match prev, rest with
    | _, [] => none
    | _, c :: tl => if clsMem kc c then k (some c) tl caps else none
  | _ + 1, .litCI ch, prev, rest, k, caps =>
    match prev, rest with
    | _, [] => none
    | _, c :: tl => if c.toLower = ch.toLower then k (some c) tl caps else none
  | f + 1, .seq a b, prev, rest, k, caps =>
    mrx f a prev rest (fun p' r' c' => mrx f b p' r' k c') caps
  | f + 1, .alt a b, prev, rest, k, caps =>
    match mrx f a prev rest k caps with
    | some v => some v
    | none => mrx f b prev rest k caps
  | f + 1, .star a, prev, rest, k, caps =>
    match mrx f a prev rest (fun p' r' c' => mrx f (.star a) p' r' k c') caps with
    | some v => some v
    | none => k prev rest caps
  | f + 1, .plus a, prev, rest, k, caps =>
    mrx f (.seq a (.star a)) prev rest k caps
  | f + 1, .opt a, prev, rest, k, caps =>
    match mrx f a prev rest k caps with
    | some v => some v
    | none => k prev rest caps
  | f + 1, .grp i a, prev, rest, k, caps =>
    mrx f a prev rest
      (fun p' r' c' => k p' r' ((i, rest.take (rest.length - r'.length)) :: c')) caps

/-- Fuel that amply bounds the continuation depth for the small patterns of
the source on input `cs`. -/
def rxFuel (cs : List Char) : Nat := (cs.length + 2) * 200 + 200

/-- Try to match `r` anchored at the current position; returns the suffix
after the match and the captures. -/
def matchAt (r : Rx) (prev : Option Char) (rest : List Char) :
    Option (List Char × List (Nat × List Char)) :=
  mrx (rxFuel rest) r prev rest (fun _ r' caps => some (r', caps)) []

/-- Models `re.search`: leftmost match.  Returns the suffix starting at the match
position together with the captures. -/
def reSearchAux (r : Rx) : Option Char → List Char →
    Option (List Char × List (Nat × List Char))
  | prev, rest =>
    match matchAt r prev rest with
    | some (_, caps) => some (rest, caps)
    | none =>
      match rest with
      | [] => none
      | c :: tl => reSearchAux r (some c) tl

def reSearch (r : Rx) (cs : List Char) :
    Option (List Char × List (Nat × List Char)) :=
  reSearchAux r none cs

/-- Models `re.finditer`: non-overlapping leftmost matches, scanning left to right;
after a match the scan resumes at its end (advancing one character on a
zero-width match, as Python does). -/
def findIterAux (r : Rx) : Nat → Option Char → List Char →
    List (List (Nat × List Char))
  | 0, _, _ => []
  | f + 1, prev, rest =>
    match matchAt r prev rest with
    | some (r', caps) =>
      let consumed := rest.take (rest.length - r'.length)
      match consumed.getLast? with
      | some lastC => caps :: findIterAux r f (some lastC) r'
      | none =>
        match rest with
        | [] => [caps]
        | c :: tl => caps :: findIterAux r f (some c) tl
    | none =>
      match rest with
      | [] => []
      | c :: tl => findIterAux r f (some c) tl

def reFindAll (r : Rx) (cs : List Char) : List (List (Nat × List Char)) :=
  findIterAux r (cs.length + 1) none cs

/-- Value of capture group `i` in a capture list (most recent first). -/
def capGet (caps : List (Nat × List Char)) (i : Nat) : Option String :=
  match caps with
  | [] => none
  | (j, w) :: tl => if j = i then some (String.mk w) else capGet tl i

/-! ### The source's patterns as `Rx` terms -/

/-- Right-nested sequence of a list of regexes. -/
def rseq (l : List Rx) : Rx := l.foldr Rx.seq .eps

/-- Case-insensitive literal string. -/
def rstr (s : String) : Rx := rseq (s.toList.map Rx.litCI)

/-- Models `(input|output|inout)` — alternation tried left to right. -/
def dirAlt : Rx := .alt (rstr "input") (.alt (rstr "output") (rstr "inout"))

/-- Models `(?:wire\s+|reg\s+|logic\s+|)` — note the trailing empty alternative. -/
def typOpt : Rx :=
  .alt (rseq [rstr "wire", .plus (.cls .spaceC)])
    (.alt (rseq [rstr "reg", .plus (.cls .spaceC)])
      (.alt (rseq [rstr "logic", .plus (.cls .spaceC)]) .eps))

/-- Models `\[[^]]+\]\s+` — one bracketed range followed by whitespace. -/
def brackGrp : Rx :=
  rseq [.litCI '[', .plus (.cls .notRBrackC), .litCI ']', .plus (.cls .spaceC)]

/-- Models `r'\b(input|output|inout)\s+(?:wire\s+|reg\s+|logic\s+|)\s*(?:\[[^]]+\]\s+)*\s*(\w+)\s*(?:,|;|$)'`
(`port_pattern` in `_extract_ports_simple`). -/
def portRx : Rx :=
  rseq [.wordB, .grp 1 dirAlt, .plus (.cls .spaceC), typOpt, .star (.cls .spaceC),
    .star brackGrp, .star (.cls .spaceC), .grp 2 (.plus (.cls .wordC)),
    .star (.cls .spaceC), .alt (.litCI ',') (.alt (.litCI ';') .eos)]

/-- Models `r'\b(input|output|inout)\s+(?:wire\s+|reg\s+|logic\s+|)\s*(?:\[[^]]+\]\s+)*\s*([\w\s,]+)'`
(`multi_port_pattern` in `_extract_ports_simple`). -/
def multiRx : Rx :=
  rseq [.wordB, .grp 1 dirAlt, .plus (.cls .spaceC), typOpt, .star (.cls .spaceC),
    .star brackGrp, .star (.cls .spaceC), .grp 2 (.plus (.cls .wordSpComC))]

/-- Models `r'\bmodule\s+(\w+)\s*[#(;]'` (`module_pattern`). -/
def modRx : Rx :=
  rseq [.wordB, rstr "module", .plus (.cls .spaceC), .grp 1 (.plus (.cls .wordC)),
    .star (.cls .spaceC), .alt (.litCI '#') (.alt (.litCI '(') (.litCI ';'))]

/-- Models `r'\bmodule\s+' + module_name + r'\b'` (the `module_start` search). -/
def modStartRx (name : String) : Rx :=
  rseq [.wordB, rstr "module", .plus (.cls .spaceC), rstr name, .wordB]

/-- Models `r'\b(\w+)\s*(?:#\s*\([^)]*\)\s*)?\s*(\w+)\s*\(\s*(?:\.[^;]+)\s*\)\s*;'`
(`instantiation_pattern` in `discover_instance_mapping`). -/
def instRx : Rx :=
  rseq [.wordB, .grp 1 (.plus (.cls .wordC)), .star (.cls .spaceC),
    .opt (rseq [.litCI '#', .star (.cls .spaceC), .litCI '(',
      .star (.cls .notRParC), .litCI ')', .star (.cls .spaceC)]),
    .star (.cls .spaceC), .grp 2 (.plus (.cls .wordC)), .star (.cls .spaceC),
    .litCI '(', .star (.cls .spaceC), .litCI '.', .plus (.cls .notSemiC),
    .star (.cls .spaceC), .litCI ')', .star (.cls .spaceC), .litCI ';']

/-! ### RTL scanning (`discover_instance_mapping`, `find_rtl_modules`,
`_extract_ports_simple`) -/

/-- Python `s.lower()` (ASCII). -/
def strLower (s : String) : String := String.mk (s.toList.map Char.toLower)

/-- The `skip_keywords` list of `discover_instance_mapping` (lower-cased, as
the source compares `module_type.lower()` against the lower-cased list). -/
def skipKeywords : List String :=
  ["if", "else", "begin", "end", "case", "generate", "initial",
   "always", "assign", "function", "task", "for", "while", "repeat",
   "forever", "wait", "disable", "assert", "assume", "cover",
   "property", "sequence", "logic", "reg", "wire", "input", "output",
   "inout", "parameter", "localparam", "typedef", "struct", "enum",
   "package", "class", "program", "interface", "modport", "clocking"]

/-- Group-1 values of all `module_pattern` matches in (comment-stripped)
content: the module names of a file, in match order. -/
def moduleNames (stripped : String) : List String :=
  (reFindAll modRx stripped.toList).filterMap (fun caps => capGet caps 1)

/-- All `(module_type, instance_name)` pairs matched by
`instantiation_pattern` in (comment-stripped) content, before any keyword
filtering. -/
def instCandidates (stripped : String) : List (String × String) :=
  (reFindAll instRx stripped.toList).filterMap (fun caps =>
    match capGet caps 1, capGet caps 2 with
    | some t, some n => some (t, n)
    | _, _ => none)

/-- The `instantiations_in_file` list of `discover_instance_mapping`:
matches of the instantiation pattern whose module-type identifier survives
the `skip_keywords` filter.  Takes the raw file content (comments are
stripped first, as in the source). -/
def instantiations_in_file (content : String) : List (String × String) :=
  (instCandidates (stripComments content)).filter
    (fun tn => !(skipKeywords.contains (strLower tn.1)))

/-- Accumulate one file's module names into the running `all_rtl_modules`
set (insertion order). -/
def stepMods (mods : List String) (content : String) : List String :=
  (moduleNames (stripComments content)).foldl insertDistinct mods

/-- The set `all_rtl_modules` after scanning all files. -/
def allRtlModules (files : List String) : List String :=
  files.foldl stepMods []

/-- One candidate of `discover_instance_mapping`'s instantiation loop:
skip keyword module types; record when the module type is already known and
the instance name is a VCD scope.  Dict assignment is prepend (`lookupA`
takes the most recent). -/
def candStep (vcdMods mods : List String) (im : List (String × String))
    (tn : String × String) : List (String × String) :=
  if skipKeywords.contains (strLower tn.1) then im
  else if mods.contains tn.1 && vcdMods.contains tn.2 then (tn.2, tn.1) :: im
  else im

/-- One file of `discover_instance_mapping`'s main loop: add the file's
modules to the set, then process its instantiation candidates. -/
def discoverStep (vcdMods : List String) (acc : List String × List (String × String))
    (content : String) : List String × List (String × String) :=
  let stripped := stripComments content
  let mods := (moduleNames stripped).foldl insertDistinct acc.1
  (mods, (instCandidates stripped).foldl (candStep vcdMods mods) acc.2)

/-- The direct-match fallback step (`for vcd_module in vcd_modules: ...`). -/
def fbStep (mods : List String) (im : List (String × String)) (v : String) :
    List (String × String) :=
  if mods.contains v && (lookupA im v).isNone then (v, v) :: im else im

/-- Models `discover_instance_mapping`: the per-file loop followed by the
direct-match fallback. -/
def discover_instance_mapping (files : List String) (vcdMods : List String) :
    List (String × String) :=
  let st := files.foldl (discoverStep vcdMods) ([], [])
  vcdMods.foldl (fbStep st.1) st.2

/-- Names also rejected as port identifiers by `_extract_ports_simple`. -/
def portNameKws : List String := ["wire", "reg", "logic", "input", "output", "inout"]

/-- Models `re.sub(r'[;,].*', '', port_name).strip()`: truncate at the first `;`
or `,`, then strip. -/
def cleanPortName (s : String) : String :=
  pyStrip (String.mk (s.toList.takeWhile (fun c => c ≠ ';' && c ≠ ',')))

/-- Models `re.search(port_pattern, line, re.IGNORECASE)`, returning
`(group(1).lower(), group(2))`. -/
def portSearch (line : String) : Option (String × String) :=
  match reSearch portRx line.toList with
  | some (_, caps) =>
    match capGet caps 1, capGet caps 2 with
    | some d, some n => some (strLower d, n)
    | _, _ => none
  | none => none

/-- Models `re.search(multi_port_pattern, line, re.IGNORECASE)`, returning
`(group(1).lower(), group(2))`. -/
def multiSearch (line : String) : Option (String × String) :=
  match reSearch multiRx line.toList with
  | some (_, caps) =>
    match capGet caps 1, capGet caps 2 with
    | some d, some ns => some (strLower d, ns)
    | _, _ => none
  | none => none

/-- Python `s.split(sep)` on character lists (keeps empty pieces). -/
def splitOnChar (sep : Char) (cs : List Char) : List (List Char) :=
  go cs []
where
  go : List Char → List Char → List (List Char)
    | [], acc => [acc.reverse]
    | c :: tl, acc =>
      if c = sep then acc.reverse :: go tl [] else go tl (c :: acc)

/-- The multi-port branch of `_extract_ports_simple`'s line loop: split the
captured name list on commas, strip and clean each piece, and record the
survivors. -/
def multiRecord (ports : List (String × String)) (dir : String) (namesStr : String) :
    List (String × String) :=
  ((splitOnChar ',' namesStr.toList).map
      (fun p => cleanPortName (String.mk (pyStripChars p)))).foldl
    (fun ps name =>
      if name ≠ "" && !(portNameKws.contains name) then (name, dir) :: ps else ps)
    ports

/-- The fall-through of `_extract_ports_simple`'s line loop: try the
multi-port pattern on the stripped line. -/
def portMultiBranch (ports : List (String × String)) (l : String) :
    List (String × String) :=
  match multiSearch l with
  | some (dir, namesStr) => multiRecord ports dir namesStr
  | none => ports

/-- One line of `_extract_ports_simple`'s loop.  The single-port pattern is
tried first; on a non-keyword hit the line is done (`continue`).  Otherwise
the multi-port pattern runs. -/
def portLineStep (ports : List (String × String)) (line : String) :
    List (String × String) :=
  let l := pyStrip line
  if l = "" || pyStartsWith l "//" then ports
  else
    match portSearch l with
    | some (dir, name) =>
      if !(portNameKws.contains name) then (name, dir) :: ports
      else portMultiBranch ports l
    | none => portMultiBranch ports l

/-- Models `_extract_ports_simple(content, module_name)`: locate the module, cut
its body at the first `endmodule`, and scan it line by line.  `content` is
the comment-stripped file content, as passed by `find_rtl_modules`. -/
def _extract_ports_simple (content : String) (moduleName : String) :
    List (String × String) :=
  match reSearch (modStartRx moduleName) content.toList with
  | none => []
  | some (suffix, _) =>
    match findSplit ("endmodule".toList) suffix with
    | none => []
    | some (body, _) =>
      ((splitOnChar '\n' body).map String.mk).foldl portLineStep []

/-- Models `find_rtl_modules`: for each file, for each module defined in it that is
a target (a value of the instance map), extract its ports; record it only
when the port set is non-empty.  Later finds overwrite earlier ones
(prepend + first-match lookup). -/
def find_rtl_modules (files : List String) (instanceMap : List (String × String)) :
    List (String × List (String × String)) :=
  let targets := instanceMap.map Prod.snd
  files.foldl
    (fun acc content =>
      let stripped := stripComments content
      (moduleNames stripped).foldl
        (fun acc m =>
          if targets.contains m then
            let ports := _extract_ports_simple stripped m
            if ports ≠ [] then (m, ports) :: acc else acc
          else acc)
        acc)
    []

/-! ### VCD scanning and rewriting (`extract_vcd_modules`, `update_vcd_file`,
`main`) -/

/-- Models `extract_vcd_modules`: collect scope names from `$scope module` lines
into a set (determinised to insertion order); `$upscope` pops the hierarchy
stack.  The returned value is the module set; the hierarchy and
`current_module` are maintained exactly as in the source but do not affect
the result. -/
def extract_vcd_modules (lines : List String) : List String :=
  (lines.foldl
    (fun (st : List String × List String) line =>
      let stripped := pyStrip line
      if pyStartsWith stripped "$scope module" then
        match pySplit stripped with
        | _ :: _ :: name :: _ => (name :: st.1, insertDistinct st.2 name)
        | _ => st
      else if pyStartsWith stripped "$upscope" then
        match st.1 with
        | _ :: hier => (hier, st.2)
        | [] => st
      else st)
    ([], [])).2

/-- One line of `update_vcd_file`'s loop.  Returns the emitted line, the
update count contribution, and the new `current_module`.  `cur.isSome`
models truthiness of `current_module` (scope names are non-empty tokens, so
only `None` is falsy). -/
def processLine (instanceMap : List (String × String))
    (rtlModules : List (String × List (String × String)))
    (cur : Option String) (line : String) : String × Nat × Option String :=
  let stripped := pyStrip line
  if pyStartsWith stripped "$scope module" then
    match pySplit stripped with
    | _ :: _ :: name :: _ => (line, 0, some name)
    | _ => (line, 0, cur)
  else if pyStartsWith stripped "$var" && cur.isSome then
    match cur with
    | some curName =>
      (match pySplit stripped with
       | p0 :: _p1 :: p2 :: p3 :: p4 :: restTok =>
         let actual := (lookupA instanceMap curName).getD curName
         (match lookupA rtlModules actual with
          | some ports =>
            (match lookupA ports p4 with
             | some dir =>
               (pyJoinNl (p0 :: dir :: p2 :: p3 :: p4 :: restTok), 1, some curName)
             | none => (line, 0, some curName))
          | none => (line, 0, some curName))
       | _ => (line, 0, some curName))
    | none => (line, 0, cur)
  else if pyStartsWith stripped "$upscope" then
    (line, 0, none)
  else
    (line, 0, cur)

/-- The line loop of `update_vcd_file`, threading `current_module`. -/
def updateGo (instanceMap : List (String × String))
    (rtlModules : List (String × List (String × String))) :
    Option String → List String → List String × Nat
  | _, [] => ([], 0)
  | cur, line :: rest =>
    let step := processLine instanceMap rtlModules cur line
    let tail := updateGo instanceMap rtlModules step.2.2 rest
    (step.1 :: tail.1, step.2.1 + tail.2)

/-- Models `update_vcd_file` on in-memory lines: returns the output lines and
`update_count`.  (The source then writes the lines out and returns
`update_count > 0`.) -/
def update_vcd_file (instanceMap : List (String × String))
    (rtlModules : List (String × List (String × String)))
    (lines : List String) : List String × Nat :=
  updateGo instanceMap rtlModules none lines

/-- The decision chain of `main`: exit 1 when no VCD modules, no instance
mappings or no matching RTL modules are found, else `0 if success else 1`
where `success = update_count > 0`. -/
def mainExit (vcdLines : List String) (rtlFiles : List String) : Nat :=
  let vcdMods := extract_vcd_modules vcdLines
  if vcdMods = [] then 1
  else
    let instanceMap := discover_instance_mapping rtlFiles vcdMods
    if instanceMap = [] then 1
    else
      let rtlModules := find_rtl_modules rtlFiles instanceMap
      if rtlModules = [] then 1
      else if (update_vcd_file instanceMap rtlModules vcdLines).2 > 0 then 0 else 1

/-- The happy-path pipeline of `main` (steps 1–4), returning the rewritten
lines and the update count. -/
def runPipeline (rtlFiles : List String) (vcdLines : List String) :
    List String × Nat :=
  let vcdMods := extract_vcd_modules vcdLines
  let instanceMap := discover_instance_mapping rtlFiles vcdMods
  let rtlModules := find_rtl_modules rtlFiles instanceMap
  update_vcd_file instanceMap rtlModules vcdLines

/-- Well-formedness of a token: non-empty and whitespace-free (true of every
token produced by `pySplit`, and of the three direction keywords). -/
def tokenWF (t : String) : Prop :=
  t.toList ≠ [] ∧ ∀ c ∈ t.toList, pyIsSpace c = false

/-- The direction strings of a port map are well-formed tokens (true of the
`input`/`output`/`inout` produced by port extraction). -/
def dirWF (rm : List (String × List (String × String))) : Prop :=
  ∀ m ports p d, lookupA rm m = some ports → (p, d) ∈ ports → tokenWF d

/-- Did file `f`, scanned when the known-module set is `mods`, record scope
`s` via an instantiation?  (Executable form of the amended instance-map
rule.) -/
def recordedStep (vcdMods mods : List String) (f : String) (s : String) : Bool :=
  (instantiations_in_file f).any (fun tn => tn.2 = s && mods.contains tn.1)
    && vcdMods.contains s

/-- Scan files left to right, threading the known-module set, looking for an
instantiation that records scope `s`. -/
def recordedViaInstGo (vcdMods : List String) :
    List String → List String → String → Bool
  | _, [], _ => false
  | mods, f :: rest, s =>
    recordedStep vcdMods (stepMods mods f) f s
      || recordedViaInstGo vcdMods (stepMods mods f) rest s

/-- Scope `s` is recorded by the instantiation phase of
`discover_instance_mapping`: some file contains a non-keyword instantiation
`(t, s)` with `t` a module known once that file's own modules are added, and
`s` an observed VCD scope. -/
def recordedViaInstB (files vcdMods : List String) (s : String) : Bool :=
  recordedViaInstGo vcdMods [] files s

/-- A candidate `(moduleType, instanceName)` qualifies for recording scope
`s` when the known-module set is `mods`: its type is not a keyword, its
instance name is `s`, its type is a known module, and its instance name is
an observed scope.  This is exactly the condition under which `candStep`
overwrites the map entry for `s`. -/
def qualInst (vcd mods : List String) (s : String) (tn : String × String) : Bool :=
  !(skipKeywords.contains (strLower tn.1)) && decide (tn.2 = s)
    && mods.contains tn.1 && vcd.contains tn.2

/-- The module type of the last qualifying candidate for scope `s` in a
candidate list (later candidates overwrite earlier ones, as dict
assignment does). -/
def lastQualCand (vcd mods : List String) : List (String × String) → String → Option String
  | [], _ => none
  | tn :: rest, s =>
    match lastQualCand vcd mods rest s with
    | some t => some t
    | none => if qualInst vcd mods s tn then some tn.1 else none

/-- The module type recorded for scope `s` by the instantiation phase:
later files overwrite earlier ones, and within a file later candidates
overwrite earlier ones; each file's candidates are judged against the
known-module set after that file's own modules are added. -/
def lastRecordedGo (vcd : List String) : List String → List String → String → Option String
  | _, [], _ => none
  | mods, f :: rest, s =>
    match lastRecordedGo vcd (stepMods mods f) rest s with
    | some t => some t
    | none => lastQualCand vcd (stepMods mods f) (instCandidates (stripComments f)) s

/-- The module type that the latest qualifying instantiation maps scope `s`
to, over the whole scan. -/
def lastRecordedInst (files vcdMods : List String) (s : String) : Option String :=
  lastRecordedGo vcdMods [] files s

/-! ## Lemmas about the string models -/

theorem toList_mk (l : List Char) : (String.mk l).toList = l := rfl

theorem mk_toList (s : String) : String.mk s.toList = s := rfl

theorem listPre_append (p t : List Char) : listPre p (p ++ t) = true := by
  induction p with
  | nil => rfl
  | cons a as ih => simp [listPre, ih]

theorem listPre_exists {p l : List Char} (h : listPre p l = true) :
    ∃ t, l = p ++ t := by
  induction p generalizing l with
  | nil => exact ⟨l, rfl⟩
  | cons a as ih =>
    cases l with
    | nil => simp [listPre] at h
    | cons b bs =>
      simp only [listPre, Bool.and_eq_true, decide_eq_true_eq] at h
      obtain ⟨t, ht⟩ := ih h.2
      exact ⟨t, by simp [h.1, ht]⟩

theorem listPre_append_right {p w : List Char} (x : List Char)
    (h : listPre p w = true) : listPre p (w ++ x) = true := by
  obtain ⟨t, rfl⟩ := listPre_exists h
  simpa [List.append_assoc] using listPre_append p (t ++ x)

theorem listPre_of_listPre_append {a b w : List Char}
    (h : listPre (a ++ b) w = true) : listPre a w = true := by
  obtain ⟨t, rfl⟩ := listPre_exists h
  simpa [List.append_assoc] using listPre_append a (b ++ t)

/-- A string whose strip starts with `$var` does not start with
`$scope module` (second characters differ). -/
theorem var_not_scope {l : List Char}
    (h : listPre ("$var".toList) l = true) :
    listPre ("$scope module".toList) l = false := by
  obtain ⟨t, rfl⟩ := listPre_exists h
  rfl

theorem upscope_not_scope {l : List Char}
    (h : listPre ("$upscope".toList) l = true) :
    listPre ("$scope module".toList) l = false := by
  obtain ⟨t, rfl⟩ := listPre_exists h
  rfl

theorem upscope_not_var {l : List Char}
    (h : listPre ("$upscope".toList) l = true) :
    listPre ("$var".toList) l = false := by
  obtain ⟨t, rfl⟩ := listPre_exists h
  rfl

/-- Splitting consumes a whitespace-free chunk into the accumulator. -/
theorem splitWsAux_chunk (w : List Char) :
    ∀ (rest acc : List Char), (∀ c ∈ w, pyIsSpace c = false) →
      splitWsAux (w ++ rest) acc = splitWsAux rest (w.reverse ++ acc) := by
  induction w with
  | nil => intro rest acc _; simp
  | cons c w' ih =>
    intro rest acc h
    have hc : pyIsSpace c = false := h c (by simp)
    have hw' : ∀ c' ∈ w', pyIsSpace c' = false := fun c' hc' => h c' (by simp [hc'])
    have h1 : splitWsAux ((c :: w') ++ rest) acc = splitWsAux (w' ++ rest) (c :: acc) := by
      show splitWsAux (c :: (w' ++ rest)) acc = _
      simp [splitWsAux, hc]
    rw [h1, ih rest (c :: acc) hw']
    simp [List.reverse_cons, List.append_assoc]

/-- With a non-empty accumulator, the first token produced extends the
accumulator. -/
theorem splitWsAux_head (cs : List Char) :
    ∀ acc : List Char, acc ≠ [] →
      ∃ w ws, splitWsAux cs acc = w :: ws ∧ listPre acc.reverse w = true := by
  induction cs with
  | nil =>
    intro acc hacc
    refine ⟨acc.reverse, [], ?_, ?_⟩
    · simp [splitWsAux, List.isEmpty_iff, hacc]
    · simpa using listPre_append acc.reverse []
  | cons c tl ih =>
    intro acc hacc
    by_cases hc : pyIsSpace c = true
    · refine ⟨acc.reverse, splitWsAux tl [], ?_, ?_⟩
      · simp [splitWsAux, hc, List.isEmpty_iff, hacc]
      · simpa using listPre_append acc.reverse []
    · have hc' : pyIsSpace c = false := by simpa using hc
      obtain ⟨w, ws, heq, hpre⟩ := ih (c :: acc) (by simp)
      refine ⟨w, ws, ?_, ?_⟩
      · simpa [splitWsAux, hc'] using heq
      · have : listPre (acc.reverse ++ [c]) w = true := by
          simpa [List.reverse_cons] using hpre
        exact listPre_of_listPre_append this

/-- Tokens produced by splitting are non-empty and whitespace-free. -/
theorem splitWsAux_sound (cs : List Char) :
    ∀ acc : List Char, (∀ c ∈ acc, pyIsSpace c = false) →
      ∀ w ∈ splitWsAux cs acc, w ≠ [] ∧ ∀ c ∈ w, pyIsSpace c = false := by
  induction cs with
  | nil =>
    intro acc hacc w hw
    by_cases h : acc.isEmpty
    · simp [splitWsAux, h] at hw
    · simp only [splitWsAux, h, Bool.false_eq_true, if_false, List.mem_singleton] at hw
      subst hw
      constructor
      · simp [List.isEmpty_iff] at h; simpa using h
      · intro c hc; exact hacc c (by simpa using hc)
  | cons c tl ih =>
    intro acc hacc w hw
    by_cases hc : pyIsSpace c = true
    · by_cases ha : acc.isEmpty
      · simp only [splitWsAux, hc, if_true, ha] at hw
        exact ih [] (by simp) w hw
      · simp only [splitWsAux, hc, if_true, ha, Bool.false_eq_true, if_false,
          List.mem_cons] at hw
        rcases hw with hw | hw
        · subst hw
          constructor
          · simp [List.isEmpty_iff] at ha; simpa using ha
          · intro c' hc'; exact hacc c' (by simpa using hc')
        · exact ih [] (by simp) w hw
    · have hc' : pyIsSpace c = false := by simpa using hc
      simp only [splitWsAux, hc', Bool.false_eq_true, if_false] at hw
      refine ih (c :: acc) ?_ w hw
      intro c' hc'2
      rcases List.mem_cons.mp hc'2 with rfl | h
      · exact hc'
      · exact hacc c' h

/-- Splitting inverts single-space joining of well-formed tokens. -/
theorem splitWsAux_joinSp (ts : List (List Char))
    (h : ∀ w ∈ ts, w ≠ [] ∧ ∀ c ∈ w, pyIsSpace c = false) :
    splitWsAux (joinSp ts) [] = ts := by
  induction ts with
  | nil => rfl
  | cons w tl ih =>
    have hw := h w (by simp)
    have htl : ∀ w' ∈ tl, w' ≠ [] ∧ ∀ c ∈ w', pyIsSpace c = false :=
      fun w' hw' => h w' (by simp [hw'])
    cases tl with
    | nil =>
      show splitWsAux w [] = [w]
      have := splitWsAux_chunk w [] [] hw.2
      rw [List.append_nil] at this
      rw [this]
      simp [splitWsAux, List.isEmpty_iff, hw.1]
    | cons w2 tl2 =>
      show splitWsAux (w ++ ' ' :: joinSp (w2 :: tl2)) [] = w :: w2 :: tl2
      rw [splitWsAux_chunk w (' ' :: joinSp (w2 :: tl2)) [] hw.2]
      have hsp : pyIsSpace ' ' = true := rfl
      simp only [splitWsAux, hsp, if_true, List.append_nil, List.isEmpty_iff,
        List.reverse_eq_nil_iff]
      rw [if_neg hw.1]
      rw [List.reverse_reverse]
      exact congrArg (w :: ·) (ih htl)

/-- The join `joinSp (w :: tl)` extends `w`. -/
theorem joinSp_cons (w : List Char) (tl : List (List Char)) :
    ∃ r, joinSp (w :: tl) = w ++ r := by
  cases tl with
  | nil => exact ⟨[], by simp [joinSp]⟩
  | cons w2 tl2 => exact ⟨' ' :: joinSp (w2 :: tl2), rfl⟩

/-- The join of well-formed tokens ends in a non-whitespace character. -/
theorem joinSp_last (ts : List (List Char)) (hne : ts ≠ [])
    (h : ∀ w ∈ ts, w ≠ [] ∧ ∀ c ∈ w, pyIsSpace c = false) :
    ∃ c r, (joinSp ts).reverse = c :: r ∧ pyIsSpace c = false := by
  induction ts with
  | nil => exact absurd rfl hne
  | cons w tl ih =>
    have hw := h w (by simp)
    cases tl with
    | nil =>
      show ∃ c r, w.reverse = c :: r ∧ pyIsSpace c = false
      cases hr : w.reverse with
      | nil => exact absurd (by simpa using congrArg List.reverse hr) hw.1
      | cons c r =>
        refine ⟨c, r, rfl, hw.2 c ?_⟩
        have : c ∈ w.reverse := by simp [hr]
        simpa using this
    | cons w2 tl2 =>
      obtain ⟨c, r, hcr, hc⟩ := ih (by simp)
        (fun w' hw' => h w' (by simp [hw']))
      refine ⟨c, r ++ ' ' :: w.reverse, ?_, hc⟩
      show (w ++ ' ' :: joinSp (w2 :: tl2)).reverse = c :: (r ++ ' ' :: w.reverse)
      rw [List.reverse_append, List.reverse_cons, List.append_assoc, hcr]
      simp

/-- Stripping the newline-terminated join of well-formed tokens yields the
bare join. -/
theorem pyStripChars_joinSp (ts : List (List Char)) (hne : ts ≠ [])
    (h : ∀ w ∈ ts, w ≠ [] ∧ ∀ c ∈ w, pyIsSpace c = false) :
    pyStripChars (joinSp ts ++ ['\n']) = joinSp ts := by
  obtain ⟨w, tl, rfl⟩ : ∃ w tl, ts = w :: tl := by
    cases ts with
    | nil => exact absurd rfl hne
    | cons w tl => exact ⟨w, tl, rfl⟩
  have hw := h w (by simp)
  obtain ⟨c0, w', rfl⟩ : ∃ c0 w', w = c0 :: w' := by
    cases w with
    | nil => exact absurd rfl hw.1
    | cons c0 w' => exact ⟨c0, w', rfl⟩
  have hc0 : pyIsSpace c0 = false := hw.2 c0 (by simp)
  obtain ⟨r, hr⟩ := joinSp_cons (c0 :: w') tl
  obtain ⟨cl, rl, hcr, hcl⟩ := joinSp_last ((c0 :: w') :: tl) (by simp) h
  unfold pyStripChars
  rw [hr]
  have hdrop1 : ((c0 :: w' ++ r) ++ ['\n']).dropWhile pyIsSpace
      = (c0 :: w' ++ r) ++ ['\n'] := by
    simp only [List.cons_append, List.dropWhile_cons, hc0]
    simp
  rw [hdrop1]
  have hrev : ((c0 :: w' ++ r) ++ ['\n']).reverse
      = '\n' :: (joinSp ((c0 :: w') :: tl)).reverse := by
    rw [← hr]; simp
  rw [hrev]
  have hnl : pyIsSpace '\n' = true := rfl
  rw [List.dropWhile_cons]
  simp only [hnl, if_true]
  rw [hcr, List.dropWhile_cons]
  simp only [hcl, Bool.false_eq_true, if_false]
  rw [← hcr, List.reverse_reverse, hr]

/-- Splitting inverts `' '.join(parts) + '\n'` followed by `strip`. -/
theorem pySplit_pyStrip_pyJoinNl (ts : List String) (hne : ts ≠ [])
    (h : ∀ t ∈ ts, tokenWF t) :
    pySplit (pyStrip (pyJoinNl ts)) = ts := by
  have hcss : ∀ w ∈ ts.map String.toList, w ≠ [] ∧ ∀ c ∈ w, pyIsSpace c = false := by
    intro w hw
    obtain ⟨t, ht, rfl⟩ := List.mem_map.mp hw
    exact h t ht
  have hcne : ts.map String.toList ≠ [] := by
    simpa using hne
  show (splitWsAux (pyStripChars (joinSp (ts.map String.toList) ++ ['\n'])) []).map String.mk = ts
  rw [pyStripChars_joinSp _ hcne hcss, splitWsAux_joinSp _ hcss, List.map_map]
  have hid : String.mk ∘ String.toList = id := funext mk_toList
  rw [hid, List.map_id]

/-- Every token of `pySplit` is well-formed. -/
theorem pySplit_tokenWF (s : String) : ∀ t ∈ pySplit s, tokenWF t := by
  intro t ht
  obtain ⟨w, hw, rfl⟩ := List.mem_map.mp ht
  have := splitWsAux_sound s.toList [] (by simp) w hw
  exact ⟨by simpa using this.1, by simpa using this.2⟩

/-- If the strip of a line starts with `$var`, so does its first token. -/
theorem firstTok_pre {l p0 : String} {rest : List String}
    (hv : pyStartsWith (pyStrip l) "$var" = true)
    (hps : pySplit (pyStrip l) = p0 :: rest) :
    listPre ("$var".toList) p0.toList = true := by
  have hv' : listPre ("$var".toList) (pyStripChars l.toList) = true := hv
  obtain ⟨t, ht⟩ := listPre_exists hv'
  have hnws : ∀ c ∈ ("$var".toList), pyIsSpace c = false := by decide
  have hchunk := splitWsAux_chunk ("$var".toList) t [] hnws
  obtain ⟨w, ws, heq, hpre⟩ :=
    splitWsAux_head t (("$var".toList).reverse ++ []) (by simp)
  have : pySplit (pyStrip l) = (w :: ws).map String.mk := by
    show (splitWsAux (pyStripChars l.toList) []).map String.mk = _
    rw [ht, hchunk, heq]
  rw [hps] at this
  have hp0 : p0 = String.mk w := by
    simpa using congrArg (fun x => x.headD "") this
  rw [hp0, toList_mk]
  simpa using hpre

theorem lookupA_mem {α : Type} {l : List (String × α)} {k : String} {v : α}
    (h : lookupA l k = some v) : (k, v) ∈ l := by
  induction l with
  | nil => simp [lookupA] at h
  | cons kv tl ih =>
    obtain ⟨k', v'⟩ := kv
    by_cases hk : k' = k
    · simp only [lookupA, hk, if_true, Option.some.injEq] at h
      simp [hk, h]
    · simp only [lookupA, hk, if_false] at h
      exact List.mem_cons_of_mem _ (ih h)

/-! ### Branch lemmas for `processLine` -/

theorem var_not_upscope {l : List Char}
    (h : listPre ("$var".toList) l = true) :
    listPre ("$upscope".toList) l = false := by
  obtain ⟨t, rfl⟩ := listPre_exists h
  rfl

/-- A line whose strip does not start with `$var` passes through unchanged. -/
theorem processLine_not_var {im : List (String × String)}
    {rm : List (String × List (String × String))} {cur : Option String} {l : String}
    (h : pyStartsWith (pyStrip l) "$var" = false) :
    (processLine im rm cur l).1 = l := by
  simp only [processLine, h, Bool.false_and, Bool.false_eq_true, if_false]
  split
  · split <;> rfl
  · split <;> rfl

/-- In the `$var` case the computation reduces to the inner match chain. -/
theorem processLine_var_eq (im : List (String × String))
    (rm : List (String × List (String × String))) {l : String} (s : String)
    (hv : pyStartsWith (pyStrip l) "$var" = true) :
    processLine im rm (some s) l =
      (match pySplit (pyStrip l) with
       | p0 :: _ :: p2 :: p3 :: p4 :: restTok =>
         (match lookupA rm ((lookupA im s).getD s) with
          | some ports =>
            (match lookupA ports p4 with
             | some dir =>
               (pyJoinNl (p0 :: dir :: p2 :: p3 :: p4 :: restTok), 1, some s)
             | none => (l, 0, some s))
          | none => (l, 0, some s))
       | _ => (l, 0, some s)) := by
  have hscope : pyStartsWith (pyStrip l) "$scope module" = false := var_not_scope hv
  simp only [processLine, hscope, Bool.false_eq_true, if_false, hv,
    Option.isSome_some, Bool.and_self, if_true]

/-- A `$var` line with an unresolvable module: unchanged, state kept. -/
theorem processLine_var_unresolved {im : List (String × String)}
    {rm : List (String × List (String × String))} {s l : String}
    (hv : pyStartsWith (pyStrip l) "$var" = true)
    (hres : lookupA rm ((lookupA im s).getD s) = none) :
    processLine im rm (some s) l = (l, 0, some s) := by
  rw [processLine_var_eq im rm s hv]
  split
  · rw [hres]
  · rfl

/-- A `$var` line with fewer than five tokens: unchanged, state kept. -/
theorem processLine_var_short {im : List (String × String)}
    {rm : List (String × List (String × String))} {s l : String}
    (hv : pyStartsWith (pyStrip l) "$var" = true)
    (hlen : (pySplit (pyStrip l)).length < 5) :
    processLine im rm (some s) l = (l, 0, some s) := by
  rw [processLine_var_eq im rm s hv]
  split
  · next p0 p1 p2 p3 p4 restTok heq =>
    rw [heq] at hlen
    simp at hlen
    omega
  · rfl

/-- A `$var` line whose signal is not a port of the resolved module:
unchanged, state kept. -/
theorem processLine_var_nodir {im : List (String × String)}
    {rm : List (String × List (String × String))} {s l : String}
    {p0 p1 p2 p3 p4 : String} {restTok : List String}
    {ports : List (String × String)}
    (hv : pyStartsWith (pyStrip l) "$var" = true)
    (hps : pySplit (pyStrip l) = p0 :: p1 :: p2 :: p3 :: p4 :: restTok)
    (hres : lookupA rm ((lookupA im s).getD s) = some ports)
    (hdir : lookupA ports p4 = none) :
    processLine im rm (some s) l = (l, 0, some s) := by
  rw [processLine_var_eq im rm s hv, hps]
  simp [hres, hdir]

/-- The update leaf: the emitted line is the single-space rejoin of the
stripped line's tokens with the type token replaced by the direction. -/
theorem processLine_update {im : List (String × String)}
    {rm : List (String × List (String × String))} {s l : String}
    {p0 p1 p2 p3 p4 : String} {restTok : List String}
    {ports : List (String × String)} {dir : String}
    (hv : pyStartsWith (pyStrip l) "$var" = true)
    (hps : pySplit (pyStrip l) = p0 :: p1 :: p2 :: p3 :: p4 :: restTok)
    (hres : lookupA rm ((lookupA im s).getD s) = some ports)
    (hdir : lookupA ports p4 = some dir) :
    processLine im rm (some s) l =
      (pyJoinNl (p0 :: dir :: p2 :: p3 :: p4 :: restTok), 1, some s) := by
  rw [processLine_var_eq im rm s hv, hps]
  simp [hres, hdir]

/-- A `$var` line with no current scope: unchanged, state stays `none`. -/
theorem processLine_var_nocur {im : List (String × String)}
    {rm : List (String × List (String × String))} {l : String}
    (hv : pyStartsWith (pyStrip l) "$var" = true) :
    processLine im rm none l = (l, 0, none) := by
  have hscope : pyStartsWith (pyStrip l) "$scope module" = false := var_not_scope hv
  simp only [processLine, hscope, Bool.false_eq_true, if_false, hv,
    Option.isSome_none, Bool.and_false]
  split <;> rfl

/-- A `$upscope` line clears the current scope to `none` (not the parent). -/
theorem processLine_upscope {im : List (String × String)}
    {rm : List (String × List (String × String))} {cur : Option String} {l : String}
    (h : pyStartsWith (pyStrip l) "$upscope" = true) :
    processLine im rm cur l = (l, 0, none) := by
  have hscope : pyStartsWith (pyStrip l) "$scope module" = false := upscope_not_scope h
  have hvar : pyStartsWith (pyStrip l) "$var" = false := upscope_not_var h
  simp only [processLine, hscope, Bool.false_eq_true, if_false, hvar,
    Bool.false_and, h, if_true]

/-- Re-processing an emitted line under the same state reproduces the same
step: the per-line core of rewrite idempotence.  Requires the directions in
the port map to be single whitespace-free tokens (true of the extracted
`input`/`output`/`inout`). -/
theorem processLine_idem {im : List (String × String)}
    {rm : List (String × List (String × String))} (hdirs : dirWF rm)
    (cur : Option String) (l : String) :
    processLine im rm cur ((processLine im rm cur l).1) =
      processLine im rm cur l := by
  by_cases hv : pyStartsWith (pyStrip l) "$var" = true
  · cases cur with
    | none =>
      have h := @processLine_var_nocur im rm _ hv
      rw [h]; exact h
    | some s =>
      cases hres : lookupA rm ((lookupA im s).getD s) with
      | none =>
        have h := processLine_var_unresolved hv hres
        rw [h]; exact h
      | some ports =>
        by_cases hlen : (pySplit (pyStrip l)).length < 5
        · have h := @processLine_var_short im rm s _ hv hlen
          rw [h]; exact h
        · obtain ⟨p0, p1, p2, p3, p4, restTok, hps⟩ :
            ∃ p0 p1 p2 p3 p4 r,
              pySplit (pyStrip l) = p0 :: p1 :: p2 :: p3 :: p4 :: r := by
            rcases hps' : pySplit (pyStrip l) with _ | ⟨p0, _ | ⟨p1, _ | ⟨p2, _ | ⟨p3, _ | ⟨p4, r⟩⟩⟩⟩⟩
            · rw [hps'] at hlen; simp at hlen
            · rw [hps'] at hlen; simp at hlen
            · rw [hps'] at hlen; simp at hlen
            · rw [hps'] at hlen; simp at hlen
            · rw [hps'] at hlen; simp at hlen
            · exact ⟨p0, p1, p2, p3, p4, r, rfl⟩
          cases hdir : lookupA ports p4 with
          | none =>
            have h := processLine_var_nodir hv hps hres hdir
            rw [h]; exact h
          | some dir =>
            have h := processLine_update hv hps hres hdir
            rw [h]
            show processLine im rm (some s)
              (pyJoinNl (p0 :: dir :: p2 :: p3 :: p4 :: restTok)) = _
            have hwf : ∀ t ∈ pySplit (pyStrip l), tokenWF t := pySplit_tokenWF _
            rw [hps] at hwf
            have hdirwf : tokenWF dir := hdirs _ ports p4 dir hres (lookupA_mem hdir)
            have hts : ∀ t ∈ p0 :: dir :: p2 :: p3 :: p4 :: restTok, tokenWF t := by
              intro t ht
              rcases List.mem_cons.mp ht with rfl | ht
              · exact hwf t (by simp)
              · rcases List.mem_cons.mp ht with rfl | ht
                · exact hdirwf
                · exact hwf t (by simp [List.mem_cons] at ht ⊢; tauto)
            have hcss : ∀ w ∈ (p0 :: dir :: p2 :: p3 :: p4 :: restTok).map String.toList,
                w ≠ [] ∧ ∀ c ∈ w, pyIsSpace c = false := by
              intro w hw
              obtain ⟨t, ht, rfl⟩ := List.mem_map.mp hw
              exact hts t ht
            have hps' : pySplit (pyStrip (pyJoinNl (p0 :: dir :: p2 :: p3 :: p4 :: restTok)))
                = p0 :: dir :: p2 :: p3 :: p4 :: restTok :=
              pySplit_pyStrip_pyJoinNl _ (by simp) hts
            have hv' : pyStartsWith
                (pyStrip (pyJoinNl (p0 :: dir :: p2 :: p3 :: p4 :: restTok))) "$var" = true := by
              have hp0 : listPre ("$var".toList) p0.toList = true := firstTok_pre hv hps
              show listPre ("$var".toList)
                (pyStrip (pyJoinNl (p0 :: dir :: p2 :: p3 :: p4 :: restTok))).toList = true
              have hstrip : (pyStrip (pyJoinNl (p0 :: dir :: p2 :: p3 :: p4 :: restTok))).toList
                  = joinSp ((p0 :: dir :: p2 :: p3 :: p4 :: restTok).map String.toList) := by
                show pyStripChars
                  (joinSp ((p0 :: dir :: p2 :: p3 :: p4 :: restTok).map String.toList) ++ ['\n']) = _
                exact pyStripChars_joinSp _ (by simp) hcss
              rw [hstrip]
              obtain ⟨r, hr⟩ :=
                joinSp_cons p0.toList ((dir :: p2 :: p3 :: p4 :: restTok).map String.toList)
              rw [List.map_cons, hr]
              exact listPre_append_right r hp0
            exact processLine_update hv' hps' hres hdir
  · have hv' : pyStartsWith (pyStrip l) "$var" = false := by simpa using hv
    rw [processLine_not_var hv']

/-! ### Lemmas about the rewrite loop -/

/-- The rewrite emits exactly one line per input line. -/
theorem updateGo_length (im : List (String × String))
    (rm : List (String × List (String × String))) :
    ∀ (cur : Option String) (lines : List String),
      (updateGo im rm cur lines).1.length = lines.length := by
  intro cur lines
  induction lines generalizing cur with
  | nil => rfl
  | cons l rest ih => simp [updateGo, ih]

/-- A line whose strip does not start with `$var` is emitted verbatim. -/
theorem updateGo_nonvar (im : List (String × String))
    (rm : List (String × List (String × String))) :
    ∀ (cur : Option String) (lines : List String) (i : Nat),
      pyStartsWith (pyStrip (lines.getD i "")) "$var" = false →
      (updateGo im rm cur lines).1.getD i "" = lines.getD i "" := by
  intro cur lines
  induction lines generalizing cur with
  | nil => intro i _; rfl
  | cons l rest ih =>
    intro i hi
    cases i with
    | zero =>
      show (processLine im rm cur l).1 = l
      exact processLine_not_var (by simpa using hi)
    | succ i =>
      show (updateGo im rm (processLine im rm cur l).2.2 rest).1.getD i "" = rest.getD i ""
      exact ih _ i (by simpa using hi)

/-- The rewrite loop is idempotent from any starting state. -/
theorem updateGo_idem {im : List (String × String)}
    {rm : List (String × List (String × String))} (hdirs : dirWF rm) :
    ∀ (cur : Option String) (lines : List String),
      updateGo im rm cur (updateGo im rm cur lines).1 =
        updateGo im rm cur lines := by
  intro cur lines
  induction lines generalizing cur with
  | nil => rfl
  | cons l rest ih =>
    show updateGo im rm cur
        ((processLine im rm cur l).1 :: (updateGo im rm (processLine im rm cur l).2.2 rest).1)
      = _
    have hstep := @processLine_idem im rm hdirs cur l
    simp only [updateGo, hstep]
    rw [ih (processLine im rm cur l).2.2]

/-! ### Lemmas about `discover_instance_mapping` -/

theorem contains_true_of_mem {l : List String} {a : String} (h : a ∈ l) :
    l.contains a = true := by
  simpa using h

theorem mem_of_contains_true {l : List String} {a : String}
    (h : l.contains a = true) : a ∈ l := by
  simpa using h

/-- Keys present after the candidate loop of one file. -/
theorem candFold_isSome (vcd mods : List String) (s : String) :
    ∀ (cands : List (String × String)) (im : List (String × String)),
      (lookupA (cands.foldl (candStep vcd mods) im) s).isSome = true ↔
        ((∃ tn ∈ cands, strLower tn.1 ∉ skipKeywords ∧ tn.2 = s ∧
            tn.1 ∈ mods ∧ tn.2 ∈ vcd) ∨
          (lookupA im s).isSome = true) := by
  intro cands
  induction cands with
  | nil => intro im; simp
  | cons tn rest ih =>
    intro im
    show (lookupA (rest.foldl (candStep vcd mods) (candStep vcd mods im tn)) s).isSome = true ↔ _
    rw [ih (candStep vcd mods im tn)]
    by_cases hkw : strLower tn.1 ∈ skipKeywords
    · have hstep : candStep vcd mods im tn = im := by
        unfold candStep
        rw [if_pos (contains_true_of_mem hkw)]
      rw [hstep]
      constructor
      · rintro (⟨tn', h1, h2⟩ | h)
        · exact Or.inl ⟨tn', List.mem_cons_of_mem _ h1, h2⟩
        · exact Or.inr h
      · rintro (⟨tn', h1, h2⟩ | h)
        · rcases List.mem_cons.mp h1 with rfl | h1
          · exact absurd hkw h2.1
          · exact Or.inl ⟨tn', h1, h2⟩
        · exact Or.inr h
    · have hkw' : skipKeywords.contains (strLower tn.1) ≠ true :=
        fun hb => hkw (mem_of_contains_true hb)
      by_cases hm : tn.1 ∈ mods
      · by_cases hv : tn.2 ∈ vcd
        · have hstep : candStep vcd mods im tn = (tn.2, tn.1) :: im := by
            unfold candStep
            rw [if_neg hkw', if_pos]
            rw [Bool.and_eq_true]
            exact ⟨contains_true_of_mem hm, contains_true_of_mem hv⟩
          rw [hstep]
          by_cases hs : tn.2 = s
          · constructor
            · intro _; exact Or.inl ⟨tn, by simp, hkw, hs, hm, hv⟩
            · intro _; exact Or.inr (by simp [lookupA, hs])
          · have hl : lookupA ((tn.2, tn.1) :: im) s = lookupA im s := by
              simp [lookupA, hs]
            rw [hl]
            constructor
            · rintro (⟨tn', h1, h2⟩ | h)
              · exact Or.inl ⟨tn', List.mem_cons_of_mem _ h1, h2⟩
              · exact Or.inr h
            · rintro (⟨tn', h1, h2⟩ | h)
              · rcases List.mem_cons.mp h1 with rfl | h1
                · exact absurd h2.2.1 hs
                · exact Or.inl ⟨tn', h1, h2⟩
              · exact Or.inr h
        · have hstep : candStep vcd mods im tn = im := by
            unfold candStep
            rw [if_neg hkw', if_neg]
            rw [Bool.and_eq_true]
            rintro ⟨_, hb⟩
            exact hv (mem_of_contains_true hb)
          rw [hstep]
          constructor
          · rintro (⟨tn', h1, h2⟩ | h)
            · exact Or.inl ⟨tn', List.mem_cons_of_mem _ h1, h2⟩
            · exact Or.inr h
          · rintro (⟨tn', h1, h2⟩ | h)
            · rcases List.mem_cons.mp h1 with rfl | h1
              · exact absurd h2.2.2.2 hv
              · exact Or.inl ⟨tn', h1, h2⟩
            · exact Or.inr h
      · have hstep : candStep vcd mods im tn = im := by
          unfold candStep
          rw [if_neg hkw', if_neg]
          rw [Bool.and_eq_true]
          rintro ⟨hb, _⟩
          exact hm (mem_of_contains_true hb)
        rw [hstep]
        constructor
        · rintro (⟨tn', h1, h2⟩ | h)
          · exact Or.inl ⟨tn', List.mem_cons_of_mem _ h1, h2⟩
          · exact Or.inr h
        · rintro (⟨tn', h1, h2⟩ | h)
          · rcases List.mem_cons.mp h1 with rfl | h1
            · exact absurd h2.2.2.1 hm
            · exact Or.inl ⟨tn', h1, h2⟩
          · exact Or.inr h

theorem discoverStep_fst (vcd : List String) (acc : List String × List (String × String))
    (f : String) : (discoverStep vcd acc f).1 = stepMods acc.1 f := rfl

/-- Restatement of `recordedStep` in existential form. -/
theorem recordedStep_iff (vcd mods : List String) (f s : String) :
    recordedStep vcd mods f s = true ↔
      ∃ tn ∈ instCandidates (stripComments f), strLower tn.1 ∉ skipKeywords ∧
        tn.2 = s ∧ tn.1 ∈ mods ∧ tn.2 ∈ vcd := by
  rw [recordedStep, Bool.and_eq_true, List.any_eq_true]
  constructor
  · rintro ⟨⟨tn, h1, h2⟩, hv⟩
    rw [instantiations_in_file, List.mem_filter] at h1
    rw [Bool.and_eq_true, decide_eq_true_eq] at h2
    refine ⟨tn, h1.1, ?_, h2.1, mem_of_contains_true h2.2, ?_⟩
    · intro hmem
      have := h1.2
      rw [contains_true_of_mem hmem] at this
      exact absurd this (by simp)
    · rw [h2.1]; exact mem_of_contains_true hv
  · rintro ⟨tn, h1, hkw, hs, hm, hv⟩
    refine ⟨⟨tn, ?_, ?_⟩, ?_⟩
    · rw [instantiations_in_file, List.mem_filter]
      refine ⟨h1, ?_⟩
      cases hb : skipKeywords.contains (strLower tn.1) with
      | false => rfl
      | true => exact absurd (mem_of_contains_true hb) hkw
    · rw [Bool.and_eq_true, decide_eq_true_eq]
      exact ⟨hs, contains_true_of_mem hm⟩
    · rw [← hs]; exact contains_true_of_mem hv

/-- Keys present after one file of the discovery loop. -/
theorem discoverStep_isSome (vcd : List String) (acc : List String × List (String × String))
    (f : String) (s : String) :
    (lookupA (discoverStep vcd acc f).2 s).isSome = true ↔
      (recordedStep vcd (stepMods acc.1 f) f s = true ∨
        (lookupA acc.2 s).isSome = true) := by
  show (lookupA ((instCandidates (stripComments f)).foldl
      (candStep vcd (stepMods acc.1 f)) acc.2) s).isSome = true ↔ _
  rw [candFold_isSome, recordedStep_iff]

/-- Keys present after the whole per-file discovery loop. -/
theorem phase1_isSome (vcd : List String) (s : String) :
    ∀ (files : List String) (acc : List String × List (String × String)),
      (lookupA (files.foldl (discoverStep vcd) acc).2 s).isSome = true ↔
        (recordedViaInstGo vcd acc.1 files s = true ∨
          (lookupA acc.2 s).isSome = true) := by
  intro files
  induction files with
  | nil => intro acc; simp [recordedViaInstGo]
  | cons f rest ih =>
    intro acc
    show (lookupA (rest.foldl (discoverStep vcd) (discoverStep vcd acc f)).2 s).isSome = true ↔ _
    rw [ih (discoverStep vcd acc f), discoverStep_isSome, discoverStep_fst]
    show _ ↔ (recordedStep vcd (stepMods acc.1 f) f s
        || recordedViaInstGo vcd (stepMods acc.1 f) rest s) = true ∨ _
    rw [Bool.or_eq_true]
    tauto

/-- Keys present after the direct-match fallback loop. -/
theorem fbFold_isSome (mods : List String) (s : String) :
    ∀ (vs : List String) (im : List (String × String)),
      (lookupA (vs.foldl (fbStep mods) im) s).isSome = true ↔
        ((lookupA im s).isSome = true ∨ (s ∈ vs ∧ s ∈ mods)) := by
  intro vs
  induction vs with
  | nil => intro im; simp
  | cons v rest ih =>
    intro im
    show (lookupA (rest.foldl (fbStep mods) (fbStep mods im v)) s).isSome = true ↔ _
    rw [ih (fbStep mods im v)]
    by_cases hcond : (mods.contains v && (lookupA im v).isNone) = true
    · have hstep : fbStep mods im v = (v, v) :: im := by
        unfold fbStep; rw [if_pos hcond]
      rw [hstep]
      rw [Bool.and_eq_true] at hcond
      obtain ⟨hm, _⟩ := hcond
      by_cases hv : v = s
      · subst hv
        constructor
        · intro _; exact Or.inr ⟨by simp, mem_of_contains_true hm⟩
        · intro _; exact Or.inl (by simp [lookupA])
      · have hl : lookupA ((v, v) :: im) s = lookupA im s := by simp [lookupA, hv]
        rw [hl]
        constructor
        · rintro (h | ⟨h1, h2⟩)
          · exact Or.inl h
          · exact Or.inr ⟨List.mem_cons_of_mem _ h1, h2⟩
        · rintro (h | ⟨h1, h2⟩)
          · exact Or.inl h
          · rcases List.mem_cons.mp h1 with rfl | h1
            · exact absurd rfl hv
            · exact Or.inr ⟨h1, h2⟩
    · have hstep : fbStep mods im v = im := by
        unfold fbStep; rw [if_neg hcond]
      rw [hstep]
      by_cases hv : v = s
      · subst hv
        rcases Bool.and_eq_false_iff.mp (Bool.eq_false_iff.mpr hcond) with hm | hn
        · constructor
          · rintro (h | ⟨h1, h2⟩)
            · exact Or.inl h
            · exact Or.inr ⟨List.mem_cons_of_mem _ h1, h2⟩
          · rintro (h | ⟨_, h2⟩)
            · exact Or.inl h
            · rw [contains_true_of_mem h2] at hm
              exact absurd hm (by simp)
        · have hsome : (lookupA im v).isSome = true := by
            cases hl : lookupA im v with
            | none => rw [hl] at hn; simp at hn
            | some _ => rfl
          constructor
          · intro _; exact Or.inl hsome
          · intro _; exact Or.inl hsome
      · constructor
        · rintro (h | ⟨h1, h2⟩)
          · exact Or.inl h
          · exact Or.inr ⟨List.mem_cons_of_mem _ h1, h2⟩
        · rintro (h | ⟨h1, h2⟩)
          · exact Or.inl h
          · rcases List.mem_cons.mp h1 with rfl | h1
            · exact absurd rfl hv
            · exact Or.inr ⟨h1, h2⟩

/-- The fallback loop maps a still-unmapped observed module scope to
itself. -/
theorem fbFold_value (mods : List String) (s : String) (hm : s ∈ mods) :
    ∀ (vs : List String) (im : List (String × String)),
      ((s ∈ vs ∧ lookupA im s = none) ∨ lookupA im s = some s) →
      lookupA (vs.foldl (fbStep mods) im) s = some s := by
  intro vs
  induction vs with
  | nil =>
    intro im h
    rcases h with ⟨h1, _⟩ | h
    · exact absurd h1 (by simp)
    · exact h
  | cons v rest ih =>
    intro im h
    show lookupA (rest.foldl (fbStep mods) (fbStep mods im v)) s = some s
    rcases h with ⟨hc, hnone⟩ | hsome
    · by_cases hv : v = s
      · subst hv
        have hstep : fbStep mods im v = (v, v) :: im := by
          unfold fbStep
          rw [if_pos]
          rw [Bool.and_eq_true]
          exact ⟨contains_true_of_mem hm, by rw [hnone]; rfl⟩
        rw [hstep]
        exact ih _ (Or.inr (by simp [lookupA]))
      · have hc' : s ∈ rest := by
          rcases List.mem_cons.mp hc with rfl | h1
          · exact absurd rfl hv
          · exact h1
        have hl : lookupA (fbStep mods im v) s = none := by
          unfold fbStep
          split
          · simp [lookupA, hv, hnone]
          · exact hnone
        exact ih _ (Or.inl ⟨hc', hl⟩)
    · have hl : lookupA (fbStep mods im v) s = some s := by
        unfold fbStep
        split
        · next hcond =>
          by_cases hv : v = s
          · subst hv
            rw [Bool.and_eq_true] at hcond
            obtain ⟨_, hn⟩ := hcond
            rw [hsome] at hn
            exact absurd hn (by simp)
          · simp [lookupA, hv, hsome]
        · exact hsome
      exact ih _ (Or.inr hl)

/-- The module-set component of the discovery fold is `allRtlModules`. -/
theorem foldl_discoverStep_fst (vcd : List String) :
    ∀ (files : List String) (acc : List String × List (String × String)),
      (files.foldl (discoverStep vcd) acc).1 = files.foldl stepMods acc.1 := by
  intro files
  induction files with
  | nil => intro acc; rfl
  | cons f rest ih =>
    intro acc
    show (rest.foldl (discoverStep vcd) (discoverStep vcd acc f)).1 = _
    rw [ih (discoverStep vcd acc f), discoverStep_fst]
    rfl

/-- One candidate step rewrites the map entry for `s` exactly when the
candidate qualifies, and records its module type. -/
theorem candStep_lookup (vcd mods : List String) (s : String)
    (im : List (String × String)) (tn : String × String) :
    lookupA (candStep vcd mods im tn) s =
      if qualInst vcd mods s tn = true then some tn.1 else lookupA im s := by
  unfold candStep qualInst
  by_cases hkw : skipKeywords.contains (strLower tn.1) = true
  · rw [if_pos hkw]
    have hq : (!(skipKeywords.contains (strLower tn.1)) && decide (tn.2 = s)
        && mods.contains tn.1 && vcd.contains tn.2) = false := by
      rw [hkw]; rfl
    rw [hq]
    simp
  · rw [if_neg hkw]
    have hkw' : skipKeywords.contains (strLower tn.1) = false := by simpa using hkw
    by_cases hc : (mods.contains tn.1 && vcd.contains tn.2) = true
    · rw [if_pos hc]
      rw [Bool.and_eq_true] at hc
      obtain ⟨hm, hv⟩ := hc
      by_cases hs : tn.2 = s
      · have hq : (!(skipKeywords.contains (strLower tn.1)) && decide (tn.2 = s)
            && mods.contains tn.1 && vcd.contains tn.2) = true := by
          rw [hkw', hm, hv, decide_eq_true hs]
          rfl
        rw [hq, lookupA, if_pos hs]
        simp
      · have hq : (!(skipKeywords.contains (strLower tn.1)) && decide (tn.2 = s)
            && mods.contains tn.1 && vcd.contains tn.2) = false := by
          rw [decide_eq_false hs]
          simp
        rw [hq, lookupA, if_neg hs]
        simp
    · rw [if_neg hc]
      have hc' : (mods.contains tn.1 && vcd.contains tn.2) = false := by simpa using hc
      rcases Bool.and_eq_false_iff.mp hc' with hm | hv
      · have hq : (!(skipKeywords.contains (strLower tn.1)) && decide (tn.2 = s)
            && mods.contains tn.1 && vcd.contains tn.2) = false := by
          rw [hm]; simp
        rw [hq]; simp
      · have hq : (!(skipKeywords.contains (strLower tn.1)) && decide (tn.2 = s)
            && mods.contains tn.1 && vcd.contains tn.2) = false := by
          rw [hv]; simp
        rw [hq]; simp

/-- The map entry for `s` after one file's candidate loop is the last
qualifying candidate's module type, falling back to the previous map. -/
theorem candFold_lookup (vcd mods : List String) (s : String) :
    ∀ (cands : List (String × String)) (im : List (String × String)),
      lookupA (cands.foldl (candStep vcd mods) im) s =
        (match lastQualCand vcd mods cands s with
         | some t => some t
         | none => lookupA im s) := by
  intro cands
  induction cands with
  | nil => intro im; rfl
  | cons tn rest ih =>
    intro im
    show lookupA (rest.foldl (candStep vcd mods) (candStep vcd mods im tn)) s = _
    rw [ih (candStep vcd mods im tn), candStep_lookup]
    show _ = (match (match lastQualCand vcd mods rest s with
                     | some t => some t
                     | none => if qualInst vcd mods s tn then some tn.1 else none) with
              | some t => some t
              | none => lookupA im s)
    cases lastQualCand vcd mods rest s with
    | some t => rfl
    | none =>
      by_cases hq : qualInst vcd mods s tn = true
      · simp [hq]
      · have hq' : qualInst vcd mods s tn = false := by simpa using hq
        simp [hq']

/-- The map entry for `s` after the whole per-file loop is the latest
qualifying instantiation's module type, falling back to the initial map. -/
theorem phase1_lookup (vcd : List String) (s : String) :
    ∀ (files : List String) (acc : List String × List (String × String)),
      lookupA (files.foldl (discoverStep vcd) acc).2 s =
        (match lastRecordedGo vcd acc.1 files s with
         | some t => some t
         | none => lookupA acc.2 s) := by
  intro files
  induction files with
  | nil => intro acc; rfl
  | cons f rest ih =>
    intro acc
    show lookupA (rest.foldl (discoverStep vcd) (discoverStep vcd acc f)).2 s = _
    rw [ih (discoverStep vcd acc f), discoverStep_fst]
    have hstep : lookupA (discoverStep vcd acc f).2 s =
        (match lastQualCand vcd (stepMods acc.1 f) (instCandidates (stripComments f)) s with
         | some t => some t
         | none => lookupA acc.2 s) := by
      show lookupA ((instCandidates (stripComments f)).foldl
        (candStep vcd (stepMods acc.1 f)) acc.2) s = _
      exact candFold_lookup vcd (stepMods acc.1 f) s _ acc.2
    rw [hstep]
    show _ = (match (match lastRecordedGo vcd (stepMods acc.1 f) rest s with
                     | some t => some t
                     | none =>
                       lastQualCand vcd (stepMods acc.1 f)
                         (instCandidates (stripComments f)) s) with
              | some t => some t
              | none => lookupA acc.2 s)
    cases lastRecordedGo vcd (stepMods acc.1 f) rest s with
    | some t => rfl
    | none => rfl

/-- The fallback loop never overwrites an existing map entry. -/
theorem fbFold_preserve (mods : List String) (s t : String) :
    ∀ (vs : List String) (im : List (String × String)),
      lookupA im s = some t →
      lookupA (vs.foldl (fbStep mods) im) s = some t := by
  intro vs
  induction vs with
  | nil => intro im h; exact h
  | cons v rest ih =>
    intro im h
    show lookupA (rest.foldl (fbStep mods) (fbStep mods im v)) s = some t
    refine ih _ ?_
    unfold fbStep
    split
    · next hcond =>
      have hv : v ≠ s := by
        intro heq
        subst heq
        rw [Bool.and_eq_true] at hcond
        obtain ⟨_, hn⟩ := hcond
        rw [h] at hn
        simp at hn
      rw [lookupA, if_neg hv]
      exact h
    · exact h

/-- Restatement of `qualInst` as a proposition. -/
theorem qualInst_iff (vcd mods : List String) (s : String) (tn : String × String) :
    qualInst vcd mods s tn = true ↔
      (strLower tn.1 ∉ skipKeywords ∧ tn.2 = s ∧ tn.1 ∈ mods ∧ tn.2 ∈ vcd) := by
  unfold qualInst
  rw [Bool.and_eq_true, Bool.and_eq_true, Bool.and_eq_true]
  constructor
  · rintro ⟨⟨⟨hkw, hs⟩, hm⟩, hv⟩
    refine ⟨?_, by simpa using hs, mem_of_contains_true hm, mem_of_contains_true hv⟩
    intro hmem
    rw [contains_true_of_mem hmem] at hkw
    exact absurd hkw (by simp)
  · rintro ⟨hkw, hs, hm, hv⟩
    refine ⟨⟨⟨?_, by simpa using hs⟩, contains_true_of_mem hm⟩, contains_true_of_mem hv⟩
    cases hb : skipKeywords.contains (strLower tn.1) with
    | false => rfl
    | true => exact absurd (mem_of_contains_true hb) hkw

/-- A candidate list has a last qualifying candidate exactly when it has a
qualifying candidate. -/
theorem lastQualCand_isSome (vcd mods : List String) (s : String) :
    ∀ (cands : List (String × String)),
      (lastQualCand vcd mods cands s).isSome = true ↔
        ∃ tn ∈ cands, strLower tn.1 ∉ skipKeywords ∧ tn.2 = s ∧
          tn.1 ∈ mods ∧ tn.2 ∈ vcd := by
  intro cands
  induction cands with
  | nil => simp [lastQualCand]
  | cons tn rest ih =>
    show ((match lastQualCand vcd mods rest s with
           | some t => some t
           | none => if qualInst vcd mods s tn then some tn.1 else none)).isSome = true ↔ _
    cases hr : lastQualCand vcd mods rest s with
    | some t =>
      constructor
      · intro _
        have : (lastQualCand vcd mods rest s).isSome = true := by rw [hr]; rfl
        obtain ⟨tn', h1, h2⟩ := ih.mp this
        exact ⟨tn', List.mem_cons_of_mem _ h1, h2⟩
      · intro _; rfl
    | none =>
      by_cases hq : qualInst vcd mods s tn = true
      · rw [if_pos hq]
        constructor
        · intro _
          exact ⟨tn, by simp, (qualInst_iff vcd mods s tn).mp hq⟩
        · intro _; rfl
      · rw [if_neg hq]
        constructor
        · intro h; simp at h
        · rintro ⟨tn', h1, h2⟩
          rcases List.mem_cons.mp h1 with rfl | h1
          · exact absurd ((qualInst_iff vcd mods s tn').mpr h2) hq
          · have := ih.mpr ⟨tn', h1, h2⟩
            rw [hr] at this
            simp at this

/-- The instantiation phase records a key exactly when some qualifying
instantiation exists, and the recorded value is that of the latest one. -/
theorem recordedGo_eq_lastGo (vcd : List String) (s : String) :
    ∀ (files : List String) (mods : List String),
      recordedViaInstGo vcd mods files s = (lastRecordedGo vcd mods files s).isSome := by
  intro files
  induction files with
  | nil => intro mods; rfl
  | cons f rest ih =>
    intro mods
    show (recordedStep vcd (stepMods mods f) f s
        || recordedViaInstGo vcd (stepMods mods f) rest s) =
      (lastRecordedGo vcd mods (f :: rest) s).isSome
    rw [ih (stepMods mods f)]
    cases hr : lastRecordedGo vcd (stepMods mods f) rest s with
    | some t => simp [lastRecordedGo, hr]
    | none =>
      simp only [lastRecordedGo, hr, Option.isSome_none, Bool.or_false]
      have h1 := recordedStep_iff vcd (stepMods mods f) f s
      have h2 := lastQualCand_isSome vcd (stepMods mods f) s
        (instCandidates (stripComments f))
      cases hb : recordedStep vcd (stepMods mods f) f s with
      | true => exact (h2.mpr (h1.mp hb)).symm
      | false =>
        cases hq : (lastQualCand vcd (stepMods mods f)
            (instCandidates (stripComments f)) s).isSome with
        | false => rfl
        | true =>
          have := h1.mpr (h2.mp hq)
          rw [hb] at this
          exact absurd this (by simp)

/-- Modules with an empty extracted port set are never entered into the
found-modules map. -/
theorem findFold_none (m : String) (im : List (String × String)) :
    ∀ (files : List String) (acc : List (String × List (String × String))),
      lookupA acc m = none →
      (∀ f ∈ files, _extract_ports_simple (stripComments f) m = []) →
      lookupA
        (files.foldl
          (fun acc content =>
            let stripped := stripComments content
            (moduleNames stripped).foldl
              (fun acc m' =>
                if (im.map Prod.snd).contains m' then
                  let ports := _extract_ports_simple stripped m'
                  if ports ≠ [] then (m', ports) :: acc else acc
                else acc)
              acc)
          acc) m = none := by
  have inner : ∀ (stripped : String) (names : List String)
      (acc : List (String × List (String × String))),
      lookupA acc m = none →
      _extract_ports_simple stripped m = [] →
      lookupA
        (names.foldl
          (fun acc m' =>
            if (im.map Prod.snd).contains m' then
              let ports := _extract_ports_simple stripped m'
              if ports ≠ [] then (m', ports) :: acc else acc
            else acc)
          acc) m = none := by
    intro stripped names
    induction names with
    | nil => intro acc hacc _; exact hacc
    | cons m' rest ih =>
      intro acc hacc hempty
      show lookupA
        (rest.foldl _
          (if (im.map Prod.snd).contains m' then
            if _extract_ports_simple stripped m' ≠ []
            then (m', _extract_ports_simple stripped m') :: acc else acc
          else acc)) m = none
      refine ih _ ?_ hempty
      by_cases ht : ((im.map Prod.snd).contains m') = true
      · rw [if_pos ht]
        by_cases hp : _extract_ports_simple stripped m' ≠ []
        · rw [if_pos hp]
          have hm' : m' ≠ m := by
            intro heq
            rw [heq] at hp
            exact hp hempty
          rw [lookupA, if_neg hm']
          exact hacc
        · rw [if_neg hp]
          exact hacc
      · rw [if_neg ht]
        exact hacc
  intro files
  induction files with
  | nil => intro acc hacc _; exact hacc
  | cons f rest ihf =>
    intro acc hacc hall
    show lookupA (rest.foldl _ _) m = none
    refine ihf _ ?_ (fun f' hf' => hall f' (List.mem_cons_of_mem _ hf'))
    exact inner (stripComments f) _ acc hacc (hall f (by simp))

/-- The three direction keywords are well-formed tokens. -/
theorem tokenWF_dir : tokenWF "input" ∧ tokenWF "output" ∧ tokenWF "inout" := by
  unfold tokenWF
  refine ⟨⟨?_, ?_⟩, ⟨?_, ?_⟩, ⟨?_, ?_⟩⟩ <;> decide

/-! ## The claims -/

/-- Claim C1 (counterexample): in the spec's end-to-end scenario the trace
line names the signal by its full hierarchical name `u_add0.sum`; the code
matches the name token verbatim against bare port names, so nothing is
rewritten and the update count is `0` (the claim demands the line become
`$var output 1 ! u_add0.sum $end` with `updateCount == 1`). -/
theorem C1_counterexample :
    runPipeline
      ["module adder(\ninput a,\ninput b,\noutput sum\n);\nendmodule\nmodule top;\nadder u_add0(.a(x),.b(y),.sum(z));\nendmodule\n"]
      ["$scope module top $end\n", "$scope module u_add0 $end\n",
       "$var wire 1 ! u_add0.sum $end\n", "$upscope $end\n", "$upscope $end\n"]
    = (["$scope module top $end\n", "$scope module u_add0 $end\n",
        "$var wire 1 ! u_add0.sum $end\n", "$upscope $end\n", "$upscope $end\n"], 0)
    ∧ "$var wire 1 ! u_add0.sum $end\n" ≠ "$var output 1 ! u_add0.sum $end\n" := by
  constructor
  · decide
  · decide

/-- Claim C1 (amended): the rewrite matches the trace's name token verbatim
against the module's bare port names.  With the var line naming the signal
as `sum`, the end-to-end scenario succeeds: the line becomes
`$var output 1 ! sum $end`, all other lines are unchanged, and the update
count is `1`. -/
theorem C1_scenario :
    runPipeline
      ["module adder(\ninput a,\ninput b,\noutput sum\n);\nendmodule\nmodule top;\nadder u_add0(.a(x),.b(y),.sum(z));\nendmodule\n"]
      ["$scope module top $end\n", "$scope module u_add0 $end\n",
       "$var wire 1 ! sum $end\n", "$upscope $end\n", "$upscope $end\n"]
    = (["$scope module top $end\n", "$scope module u_add0 $end\n",
        "$var output 1 ! sum $end\n", "$upscope $end\n", "$upscope $end\n"], 1) := by
  decide

/-- Claim C2 (counterexample): the rewrite does not restore the parent scope
on a scope close.  Here `top` maps to module `adder` which declares port
`a`, the child scope `child` closes before the `$var` line, yet the line is
not rewritten (count `0`) because `$upscope` cleared the current scope. -/
theorem C2_counterexample :
    update_vcd_file [("top", "adder")] [("adder", [("a", "input")])]
      ["$scope module top $end\n", "$scope module child $end\n",
       "$upscope $end\n", "$var wire 1 ! a $end\n", "$upscope $end\n"]
    = (["$scope module top $end\n", "$scope module child $end\n",
        "$upscope $end\n", "$var wire 1 ! a $end\n", "$upscope $end\n"], 0)
    ∧ lookupA [("top", "adder")] "top" = some "adder"
    ∧ lookupA [("adder", [("a", "input")])] "adder" = some [("a", "input")]
    ∧ lookupA [("a", "input")] "a" = some "input" := by
  refine ⟨by decide, by decide, by decide, by decide⟩

/-- Claim C2 (amended): during rewrite the current scope is not a stack: a
scope-close line sets the current scope to undefined (`none`), not to the
parent, and a variable line seen with no current scope always passes
through unchanged. -/
theorem C2_upscope_clears :
    (∀ (im : List (String × String)) (rm : List (String × List (String × String)))
       (cur : Option String) (line : String),
       pyStartsWith (pyStrip line) "$upscope" = true →
       processLine im rm cur line = (line, 0, none))
    ∧ (∀ (im : List (String × String)) (rm : List (String × List (String × String)))
         (line : String),
         pyStartsWith (pyStrip line) "$var" = true →
         processLine im rm none line = (line, 0, none)) :=
  ⟨fun _ _ _ _ h => processLine_upscope h,
   fun _ _ _ h => processLine_var_nocur h⟩

theorem C2_upscope_clears_witness :
    processLine [] [] (some "top") "$upscope $end\n" = ("$upscope $end\n", 0, none)
    ∧ processLine [] [] none "$var wire 1 ! a $end\n"
        = ("$var wire 1 ! a $end\n", 0, none) :=
  ⟨C2_upscope_clears.1 [] [] (some "top") "$upscope $end\n" (by decide),
   C2_upscope_clears.2 [] [] "$var wire 1 ! a $end\n" (by decide)⟩

/-- Claim C3 (code evaluation at the failing input): on the declaration
line `input a, b, c;` port extraction records only `a`.  The single-port
pattern matches the first identifier (its trailing context accepts a
comma) and the `continue` skips the multi-port branch, leaving `b` and `c`
unrecorded — contradicting the source's own multi-port handling comment. -/
theorem C3_code_eval :
    _extract_ports_simple "module m;\ninput a, b, c;\nendmodule\n" "m"
      = [("a", "input")] := by
  decide

/-- Claim C4 (counterexample): the rewrite's candidate test is the prefix
test `stripped.startswith('$var')`, not the variable-declaration form.  The
line `$variable wire 1 ! a $end` is not a variable declaration — its
keyword token is `$variable`, not `$var` — yet under a resolved scope it is
rewritten to `$variable input 1 ! a $end` (count 1), so a line that does
not match the variable-declaration form is not byte-identical in the
output. -/
theorem C4_counterexample :
    update_vcd_file [] [("m", [("a", "input")])]
      ["$scope module m $end\n", "$variable wire 1 ! a $end\n"]
    = (["$scope module m $end\n", "$variable input 1 ! a $end\n"], 1)
    ∧ pySplit (pyStrip "$variable wire 1 ! a $end\n")
        = ["$variable", "wire", "1", "!", "a", "$end"]
    ∧ "$variable" ≠ "$var"
    ∧ "$variable input 1 ! a $end\n" ≠ "$variable wire 1 ! a $end\n" := by
  refine ⟨by decide, by decide, by decide, by decide⟩

/-- Claim C4 (amended): the rewrite emits exactly one line per input line,
and every line whose strip does not start with `$var` is emitted
byte-identically at the same index.  The candidate test is that prefix
test, so a non-declaration line whose first token merely begins with
`$var` (e.g. `$variable ...`) can be rewritten. -/
theorem C4_line_invariance :
    ∀ (im : List (String × String)) (rm : List (String × List (String × String)))
      (lines : List String),
      (update_vcd_file im rm lines).1.length = lines.length
      ∧ ∀ i : Nat, i < lines.length →
          pyStartsWith (pyStrip (lines.getD i "")) "$var" = false →
          (update_vcd_file im rm lines).1.getD i "" = lines.getD i "" :=
  fun im rm lines =>
    ⟨updateGo_length im rm none lines,
     fun i _ h => updateGo_nonvar im rm none lines i h⟩

theorem C4_line_invariance_witness :
    (update_vcd_file [] [] ["$scope module m $end\n", "#100\n"]).1.length = 2
    ∧ (update_vcd_file [] [] ["$scope module m $end\n", "#100\n"]).1.getD 1 ""
        = "#100\n" :=
  ⟨(C4_line_invariance [] [] ["$scope module m $end\n", "#100\n"]).1,
   (C4_line_invariance [] [] ["$scope module m $end\n", "#100\n"]).2 1
     (by decide) (by decide)⟩

/-- Claim C5 (counterexample): a rewritten `$var` line is rebuilt by
single-space-joining its tokens, so bytes other than the type token are not
always preserved: with two spaces after `$var` in the input, the claim
requires `$var  input 1 ! a $end` (spacing kept) but the code emits
`$var input 1 ! a $end`. -/
theorem C5_counterexample :
    update_vcd_file [] [("m", [("a", "input")])]
      ["$scope module m $end\n", "$var  wire 1 ! a $end\n"]
    = (["$scope module m $end\n", "$var input 1 ! a $end\n"], 1)
    ∧ "$var input 1 ! a $end\n" ≠ "$var  input 1 ! a $end\n" := by
  refine ⟨by decide, by decide⟩

/-- Claim C5 (amended): on a rewritten variable line the token sequence is
preserved except for the type token, which is replaced by the resolved
direction; the line itself is re-emitted as the single-space join of those
tokens (whitespace is normalised, the identifier code, hierarchical name
and trailing tokens are preserved as tokens). -/
theorem C5_token_preservation :
    ∀ (im : List (String × String)) (rm : List (String × List (String × String)))
      (s l : String) (p0 p1 p2 p3 p4 : String) (restTok : List String)
      (ports : List (String × String)) (dir : String),
      pyStartsWith (pyStrip l) "$var" = true →
      pySplit (pyStrip l) = p0 :: p1 :: p2 :: p3 :: p4 :: restTok →
      lookupA rm ((lookupA im s).getD s) = some ports →
      lookupA ports p4 = some dir →
      tokenWF dir →
      processLine im rm (some s) l
        = (pyJoinNl (p0 :: dir :: p2 :: p3 :: p4 :: restTok), 1, some s)
      ∧ pySplit (pyStrip (pyJoinNl (p0 :: dir :: p2 :: p3 :: p4 :: restTok)))
          = p0 :: dir :: p2 :: p3 :: p4 :: restTok := by
  intro im rm s l p0 p1 p2 p3 p4 restTok ports dir hv hps hres hdir hdirWF
  have hwf : ∀ t ∈ pySplit (pyStrip l), tokenWF t := pySplit_tokenWF _
  rw [hps] at hwf
  have hts : ∀ t ∈ p0 :: dir :: p2 :: p3 :: p4 :: restTok, tokenWF t := by
    intro t ht
    rcases List.mem_cons.mp ht with rfl | ht
    · exact hwf t (by simp)
    · rcases List.mem_cons.mp ht with rfl | ht
      · exact hdirWF
      · exact hwf t (by simp [List.mem_cons] at ht ⊢; tauto)
  exact ⟨processLine_update hv hps hres hdir,
    pySplit_pyStrip_pyJoinNl _ (by simp) hts⟩

theorem C5_token_preservation_witness :
    processLine [] [("m", [("a", "input")])] (some "m") "$var  wire 1 ! a $end\n"
      = (pyJoinNl ["$var", "input", "1", "!", "a", "$end"], 1, some "m")
    ∧ pySplit (pyStrip (pyJoinNl ["$var", "input", "1", "!", "a", "$end"]))
        = ["$var", "input", "1", "!", "a", "$end"] :=
  C5_token_preservation [] [("m", [("a", "input")])] "m" "$var  wire 1 ! a $end\n"
    "$var" "wire" "1" "!" "a" ["$end"] [("a", "input")] "input"
    (by decide) (by decide) (by decide) (by decide) tokenWF_dir.1

/-- Claim C6 (counterexample): instantiation resolution is scan-order
dependent, not a property of the whole source set.  File A instantiates
`adder` (defined only in the later file B), so although `(adder, u_add0)` is
a recorded instantiation, `adder` is a known module of the set, and
`u_add0` is an observed scope, `u_add0` remains unmapped; only `top` gets
the direct-match fallback. -/
theorem C6_counterexample :
    discover_instance_mapping
      ["module top;\nadder u_add0(.a(x));\nendmodule\n",
       "module adder(\ninput a\n);\nendmodule\n"]
      ["top", "u_add0"]
    = [("top", "top")]
    ∧ ("adder", "u_add0") ∈
        instantiations_in_file "module top;\nadder u_add0(.a(x));\nendmodule\n"
    ∧ "adder" ∈ allRtlModules
        ["module top;\nadder u_add0(.a(x));\nendmodule\n",
         "module adder(\ninput a\n);\nendmodule\n"]
    ∧ "u_add0" ∈ ["top", "u_add0"]
    ∧ lookupA
        (discover_instance_mapping
          ["module top;\nadder u_add0(.a(x));\nendmodule\n",
           "module adder(\ninput a\n);\nendmodule\n"]
          ["top", "u_add0"]) "u_add0" = none := by
  refine ⟨by decide, by decide, by decide, by decide, by decide⟩

/-- Claim C6 (amended): a scope is a key of the final instance map exactly
when either some file records it via a non-keyword instantiation whose
module type is known once that file's own modules are added (scan order,
`recordedViaInstB`), or it is an observed scope equal to a known module
name of the whole set.  The recorded value is the module type of the
latest qualifying instantiation (`lastRecordedInst`: later files and later
candidates within a file overwrite earlier ones): `recordedViaInstB`
coincides with `lastRecordedInst` being set, and whenever the latest
qualifying instantiation has module type `t`, the final map sends the
scope to `t`.  Every observed scope not recorded by the instantiation
phase whose name is a known module name is mapped to itself; scopes
matching neither rule remain unmapped (the `↔`'s right-to-left
contrapositive). -/
theorem C6_instance_map :
    ∀ (files vcdMods : List String) (s : String),
      ((lookupA (discover_instance_mapping files vcdMods) s).isSome = true ↔
        (recordedViaInstB files vcdMods s = true ∨
          (s ∈ vcdMods ∧ s ∈ allRtlModules files)))
      ∧ recordedViaInstB files vcdMods s = (lastRecordedInst files vcdMods s).isSome
      ∧ (∀ t, lastRecordedInst files vcdMods s = some t →
          lookupA (discover_instance_mapping files vcdMods) s = some t)
      ∧ (recordedViaInstB files vcdMods s = false →
          s ∈ vcdMods → s ∈ allRtlModules files →
          lookupA (discover_instance_mapping files vcdMods) s = some s) := by
  intro files vcdMods s
  have hmods : (files.foldl (discoverStep vcdMods) ([], [])).1 = allRtlModules files :=
    foldl_discoverStep_fst vcdMods files ([], [])
  have hphase1 := phase1_isSome vcdMods s files ([], [])
  refine ⟨?_, ?_, ?_, ?_⟩
  · show (lookupA (vcdMods.foldl (fbStep (files.foldl (discoverStep vcdMods) ([], [])).1)
        (files.foldl (discoverStep vcdMods) ([], [])).2) s).isSome = true ↔ _
    rw [fbFold_isSome, hphase1, hmods]
    show (recordedViaInstGo vcdMods [] files s = true ∨ (lookupA [] s).isSome = true) ∨ _ ↔ _
    simp only [lookupA, Option.isSome_none, Bool.false_eq_true, or_false]
    rfl
  · exact recordedGo_eq_lastGo vcdMods s files []
  · intro t ht
    show lookupA (vcdMods.foldl (fbStep (files.foldl (discoverStep vcdMods) ([], [])).1)
        (files.foldl (discoverStep vcdMods) ([], [])).2) s = some t
    have hp : lookupA (files.foldl (discoverStep vcdMods) ([], [])).2 s = some t := by
      rw [phase1_lookup vcdMods s files ([], [])]
      have ht' : lastRecordedGo vcdMods
          (([], []) : List String × List (String × String)).1 files s = some t := ht
      rw [ht']
    exact fbFold_preserve _ s t vcdMods _ hp
  · intro hrec hv hmod
    show lookupA (vcdMods.foldl (fbStep (files.foldl (discoverStep vcdMods) ([], [])).1)
        (files.foldl (discoverStep vcdMods) ([], [])).2) s = some s
    rw [hmods]
    have hnone : lookupA (files.foldl (discoverStep vcdMods) ([], [])).2 s = none := by
      cases hl : lookupA (files.foldl (discoverStep vcdMods) ([], [])).2 s with
      | none => rfl
      | some _ =>
        have : (lookupA (files.foldl (discoverStep vcdMods) ([], [])).2 s).isSome = true := by
          rw [hl]; rfl
        rw [hphase1] at this
        rcases this with h | h
        · have h' : recordedViaInstB files vcdMods s = true := h
          rw [hrec] at h'
          exact absurd h' (by simp)
        · simp [lookupA] at h
    exact fbFold_value (allRtlModules files) s hmod vcdMods _ (Or.inl ⟨hv, hnone⟩)

theorem C6_instance_map_witness :
    lastRecordedInst
        ["module adder;\nendmodule\nmodule top;\nadder u0(.a(x));\nendmodule\n"]
        ["top", "u0"] "u0" = some "adder"
    ∧ lookupA (discover_instance_mapping
        ["module adder;\nendmodule\nmodule top;\nadder u0(.a(x));\nendmodule\n"]
        ["top", "u0"]) "u0" = some "adder"
    ∧ lookupA (discover_instance_mapping ["module top;\nendmodule\n"] ["top"]) "top"
        = some "top" :=
  ⟨by decide,
   (C6_instance_map
      ["module adder;\nendmodule\nmodule top;\nadder u0(.a(x));\nendmodule\n"]
      ["top", "u0"] "u0").2.2.1 "adder" (by decide),
   (C6_instance_map ["module top;\nendmodule\n"] ["top"] "top").2.2.2
     (by decide) (by decide) (by decide)⟩

/-- Claim C7: with fixed RTL-derived maps (directions are whitespace-free
tokens, as extraction produces), rewriting the rewrite's own output changes
nothing: the second pass reproduces the same lines and the same count. -/
theorem C7_idempotent :
    ∀ (im : List (String × String)) (rm : List (String × List (String × String)))
      (lines : List String), dirWF rm →
      update_vcd_file im rm (update_vcd_file im rm lines).1
        = update_vcd_file im rm lines :=
  fun _im _rm lines h => updateGo_idem h none lines

theorem C7_idempotent_witness :
    update_vcd_file [] [("m", [("a", "input")])]
      (update_vcd_file [] [("m", [("a", "input")])]
        ["$scope module m $end\n", "$var  wire 1 ! a $end\n"]).1
    = update_vcd_file [] [("m", [("a", "input")])]
        ["$scope module m $end\n", "$var  wire 1 ! a $end\n"] :=
  C7_idempotent [] [("m", [("a", "input")])]
    ["$scope module m $end\n", "$var  wire 1 ! a $end\n"]
    (by
      intro m ports p d hlk hmem
      by_cases h : "m" = m
      · simp only [lookupA, h, if_true, Option.some.injEq] at hlk
        subst hlk
        simp only [List.mem_singleton, Prod.mk.injEq] at hmem
        rw [hmem.2]
        exact tokenWF_dir.1
      · simp [lookupA, h] at hlk)

/-- Claim C8: no recorded instantiation has a module type in the keyword
denylist — the filter discards every candidate whose lower-cased type is a
listed keyword — and the line `if (x) begin` yields no instantiation at
all. -/
theorem C8_keyword_rejection :
    (∀ (content : String) (t n : String),
      (t, n) ∈ instantiations_in_file content → strLower t ∉ skipKeywords)
    ∧ instantiations_in_file "if (x) begin" = [] := by
  constructor
  · intro content t n hmem hkw
    rw [instantiations_in_file, List.mem_filter] at hmem
    have := hmem.2
    rw [contains_true_of_mem hkw] at this
    exact absurd this (by simp)
  · decide

theorem C8_keyword_rejection_witness :
    ("adder", "u0") ∈ instantiations_in_file "adder u0(.a(b));"
    ∧ strLower "adder" ∉ skipKeywords :=
  ⟨by decide,
   C8_keyword_rejection.1 "adder u0(.a(b));" "adder" "u0" (by decide)⟩

/-- Claim C9 (counterexample): a run with fully valid inputs (modules found
in the trace, an instance mapping, a matching RTL module with ports) whose
rewrite changes zero lines exits with status `1`, not `0`: `main` returns
`0` only when `update_count > 0`. -/
theorem C9_counterexample :
    extract_vcd_modules
        ["$scope module top $end\n", "$var wire 1 ! z $end\n", "$upscope $end\n"] ≠ []
    ∧ discover_instance_mapping ["module top(\ninput a\n);\nendmodule\n"]
        (extract_vcd_modules
          ["$scope module top $end\n", "$var wire 1 ! z $end\n", "$upscope $end\n"]) ≠ []
    ∧ find_rtl_modules ["module top(\ninput a\n);\nendmodule\n"]
        (discover_instance_mapping ["module top(\ninput a\n);\nendmodule\n"]
          (extract_vcd_modules
            ["$scope module top $end\n", "$var wire 1 ! z $end\n", "$upscope $end\n"])) ≠ []
    ∧ (runPipeline ["module top(\ninput a\n);\nendmodule\n"]
        ["$scope module top $end\n", "$var wire 1 ! z $end\n", "$upscope $end\n"]).2 = 0
    ∧ mainExit ["$scope module top $end\n", "$var wire 1 ! z $end\n", "$upscope $end\n"]
        ["module top(\ninput a\n);\nendmodule\n"] = 1 := by
  refine ⟨by decide, by decide, by decide, by decide, by decide⟩

/-- Claim C9 (amended): the process exits `0` exactly when the inputs are
valid **and** at least one line was updated; a valid run with zero updates
exits `1` like the failure cases. -/
theorem C9_exit_status :
    ∀ (vcdLines rtlFiles : List String),
      mainExit vcdLines rtlFiles = 0 ↔
        (extract_vcd_modules vcdLines ≠ []
        ∧ discover_instance_mapping rtlFiles (extract_vcd_modules vcdLines) ≠ []
        ∧ find_rtl_modules rtlFiles
            (discover_instance_mapping rtlFiles (extract_vcd_modules vcdLines)) ≠ []
        ∧ 0 < (update_vcd_file
            (discover_instance_mapping rtlFiles (extract_vcd_modules vcdLines))
            (find_rtl_modules rtlFiles
              (discover_instance_mapping rtlFiles (extract_vcd_modules vcdLines)))
            vcdLines).2) := by
  intro v r
  simp only [mainExit]
  split_ifs with h1 h2 h3 h4
  · simp [h1]
  · simp [h2]
  · simp [h3]
  · simp [h1, h2, h3, h4]
  · simp [h4]

/-- Claim C10: a targeted module whose port extraction is empty everywhere
is omitted from the found-modules map, and a variable line whose resolved
module is absent from that map passes through the rewrite unchanged with
the state kept — exactly as if the module had never been found. -/
theorem C10_empty_ports_omitted :
    (∀ (files : List String) (im : List (String × String)) (m : String),
      (∀ f ∈ files, _extract_ports_simple (stripComments f) m = []) →
      lookupA (find_rtl_modules files im) m = none)
    ∧ (∀ (im : List (String × String)) (rm : List (String × List (String × String)))
        (s l : String),
        pyStartsWith (pyStrip l) "$var" = true →
        lookupA rm ((lookupA im s).getD s) = none →
        processLine im rm (some s) l = (l, 0, some s)) :=
  ⟨fun files im m hall => findFold_none m im files [] rfl hall,
   fun _ _ _ _ hv hres => processLine_var_unresolved hv hres⟩

theorem C10_empty_ports_omitted_witness :
    lookupA (find_rtl_modules ["module top;\nendmodule\n"] [("top", "top")]) "top" = none
    ∧ processLine [("top", "top")] [] (some "top") "$var wire 1 ! a $end\n"
        = ("$var wire 1 ! a $end\n", 0, some "top") :=
  ⟨C10_empty_ports_omitted.1 ["module top;\nendmodule\n"] [("top", "top")] "top"
     (by intro f hf; rcases List.mem_singleton.mp hf with rfl; decide),
   C10_empty_ports_omitted.2 [("top", "top")] [] "top" "$var wire 1 ! a $end\n"
     (by decide) (by decide)⟩

end VCD
